import Mathlib

/-!
# Verification of the red-backup layout-and-redundancy pipeline

Shallow embedding, in Lean 4, of the core algorithms of the `red-backup`
repository (Rust), together with theorems settling the specification
claims about them.

Conventions of the embedding:
* Rust machine integers (`u64`, `usize`, `u32`) are modelled by `Nat`.
  The code under scrutiny never relies on wrap-around: additions that
  could overflow would panic in a debug build, and every subtraction in
  the translated code is guarded so that the `Nat` truncated subtraction
  agrees with the Rust value.
* Byte slices are `List Nat` (each entry a byte value; `Nat.xor`
  restricted to bytes stays a byte).
* Fallible operations (`Result` in Rust, plus `panic!`/`expect`) are
  modelled with `Option`; `none` stands for the error/panic exit.
* `f64` arithmetic in the disperser is modelled exactly: the sums of
  squares are computed in `ℚ` and the final `sqrt` (taken by
  `measure_impl`) lives in `ℝ`.  The bridge between the two is the
  strict monotonicity of `Real.sqrt` on nonnegative arguments, proved
  below, so every comparison the Rust code performs on square roots is
  mirrored faithfully by a comparison of the rational radicands.
* SHA-1 and AES-CTR are external collaborators of the repository; the
  hash function is threaded through the redundancy engine as an
  arbitrary parameter `sha1 : List Nat → List Nat`.
-/

/-! ## src/redundancy/mod.rs -/

/-- `redundancy` (src/redundancy/mod.rs, lines 7-13): byte-wise XOR of two
equal-length slices into `out`.  The Rust function asserts the lengths are
equal and writes `out[i] = data1[i] ^ data2[i]`; `List.zipWith` over two
equal-length lists is exactly that output. -/
def redundancy (data1 data2 : List Nat) : List Nat :=
  List.zipWith Nat.xor data1 data2

/-- `redundancy_copy` (src/redundancy/mod.rs, lines 15-24, together with
`redundancy_copy_impl`, lines 26-39): select the shorter input as `short`
and the longer as `long` (on a tie `data1` plays the role of `long`),
split `long` at `short.length`, XOR the common prefix and copy the tail of
the longer input.  The Rust function writes into a caller-supplied `out`
of length `max`; here the produced contents are returned. -/
def redundancy_copy (data1 data2 : List Nat) : List Nat :=
  let sl := if data1.length < data2.length then (data1, data2) else (data2, data1)
  let short := sl.1
  let long := sl.2
  let short_len := short.length
  redundancy short (long.take short_len) ++ long.drop short_len

/-! ## src/block.rs — the block streamer -/

/-- `Block` (src/block.rs, lines 8-13): one streamed block of a file. -/
structure Block where
  file_id : Nat
  block_id : Nat
  data : List Nat
deriving Repr, DecidableEq, Inhabited

/-- `BlockIter::next_block` (src/block.rs, lines 91-135), restricted to one
file: the read loop fills a buffer of `block_size` bytes until the buffer
is full or a zero-length read signals end of file, so on a file modelled
as a byte list the bytes read are `content.take block_size`.  A zero-length
first read produces no block and moves to the next file; a full block
keeps the file open with `block_id` incremented; a short block ends the
file.  (`block_id` is reset to 0 each time a new file is opened, lines
93-95.) -/
def fileBlocks (block_size fid : Nat) (content : List Nat) (bid : Nat) : List Block :=
  if (content.take block_size).length = 0 then []
  else
    ⟨fid, bid, content.take block_size⟩ ::
      (if (content.take block_size).length < block_size then []
       else fileBlocks block_size fid (content.drop block_size) (bid + 1))
termination_by content.length
decreasing_by
  simp only [List.length_take, List.length_drop] at *
  omega

/-- The stream of blocks over an ordered file list (each file given as its
caller-supplied id and its byte content), as produced by repeatedly
calling `BlockIter::next_block` (src/block.rs): files are consumed in
order, each contributing its blocks. -/
def blockStream (block_size : Nat) : List (Nat × List Nat) → List Block
  | [] => []
  | f :: rest => fileBlocks block_size f.1 f.2 0 ++ blockStream block_size rest

/-! ## src/index.rs `Block` and src/redundancy/redun.rs `PartialIndex` -/

/-- `index::Block` (src/index.rs): the on-disk `(file_id, block_id, size,
hash)` tuple; the spec calls it `IndexBlock`.  `size` is a `u32` in Rust;
the engine asserts the stored length fits before casting, so `Nat` is
exact. -/
structure IndexBlock where
  file_id : Nat
  block_id : Nat
  size : Nat
  hash : List Nat
deriving Repr, DecidableEq, Inhabited

/-- `PartialIndexKind` (src/redundancy/redun.rs, lines 88-97). -/
inductive PartialIndexKind where
  | Redundancy (left right : IndexBlock)
  | Replication (original : IndexBlock)
deriving Repr, DecidableEq

/-- `PartialIndex` (src/redundancy/redun.rs, lines 99-105). -/
structure PartialIndex where
  kind : PartialIndexKind
  id : Nat
  len : Nat
  hash : List Nat
deriving Repr, DecidableEq

/-! ## src/redundancy/redun.rs — `Redundancy::build` -/

/-- The replication arm of `Redundancy::build` (src/redundancy/redun.rs,
lines 188-214): hash the present block's data, record a `Replication`
partial index (`id` is the current queue length), and queue the data
zero-padded to `block_size` (`buf = vec![0; block_size]` overwritten on
its prefix by `copy_from_slice`, which requires `data.len ≤ block_size`;
blocks come from a `BlockIter` with the same `block_size`, so that
holds). -/
def replicationEmission (sha1 : List Nat → List Nat) (block_size : Nat)
    (b : Block) (qlen : Nat) : List Nat × PartialIndex :=
  let hash := sha1 b.data
  let index : PartialIndex :=
    { kind := .Replication ⟨b.file_id, b.block_id, b.data.length, hash⟩
      id := qlen
      len := b.data.length
      hash := hash }
  (b.data ++ List.replicate (block_size - b.data.length) 0, index)

/-- The redundancy arm of `Redundancy::build` (src/redundancy/redun.rs,
lines 215-261): hash both blocks, run `redundancy_copy` into a buffer of
length `max`, hash the (un-padded) buffer, record a `Redundancy` partial
index, then pad the buffer with zeros up to `block_size` before queueing
(the `Nat` subtraction makes the pad empty when `max = block_size`; `max >
block_size` cannot arise from a `BlockIter` with this `block_size`). -/
def redundancyEmission (sha1 : List Nat → List Nat) (block_size : Nat)
    (lblk rblk : Block) (qlen : Nat) : List Nat × PartialIndex :=
  let lhash := sha1 lblk.data
  let rhash := sha1 rblk.data
  let buf := redundancy_copy lblk.data rblk.data
  let redun_hash := sha1 buf
  let index : PartialIndex :=
    { kind := .Redundancy
        ⟨lblk.file_id, lblk.block_id, lblk.data.length, lhash⟩
        ⟨rblk.file_id, rblk.block_id, rblk.data.length, rhash⟩
      id := qlen
      len := buf.length
      hash := redun_hash }
  (buf ++ List.replicate (block_size - buf.length) 0, index)

/-- `MAX_REDUNDANCY_BLOCKS` (src/consts.rs). -/
def MAX_REDUNDANCY_BLOCKS : Nat := 1000

/-- Queue-length evolution inside `Redundancy::build`: after a push the
queue holds `qlen + 1` blocks; once it reaches `MAX_REDUNDANCY_BLOCKS` it
is spilled and cleared (src/redundancy/redun.rs, lines 264-271). -/
def nextQueueLen (qlen : Nat) : Nat :=
  if qlen + 1 ≥ MAX_REDUNDANCY_BLOCKS then 0 else qlen + 1

/-- The loop of `Redundancy::build` (src/redundancy/redun.rs, lines
182-272) viewed through the two block streams it pulls from: each
iteration takes one block from each side; both exhausted ends the loop,
exactly one present takes the replication arm, both present the
redundancy arm.  The emissions (queued payload and partial index) are
listed in order; `qlen` tracks the in-memory queue length across spills. -/
def buildEmissions (sha1 : List Nat → List Nat) (block_size : Nat) :
    List Block → List Block → Nat → List (List Nat × PartialIndex)
  | [], [], _ => []
  | l :: ls, [], qlen =>
      replicationEmission sha1 block_size l qlen ::
        buildEmissions sha1 block_size ls [] (nextQueueLen qlen)
  | [], r :: rs, qlen =>
      replicationEmission sha1 block_size r qlen ::
        buildEmissions sha1 block_size [] rs (nextQueueLen qlen)
  | l :: ls, r :: rs, qlen =>
      redundancyEmission sha1 block_size l r qlen ::
        buildEmissions sha1 block_size ls rs (nextQueueLen qlen)

/-- The longer of the two inputs of `redundancy_copy`, matching the
selection in src/redundancy/mod.rs lines 16-20 (on a tie `data1` is the
`long` side). -/
def longerOf (data1 data2 : List Nat) : List Nat :=
  if data1.length < data2.length then data2 else data1

/-- Recovery of one lost side from the emitted redundancy payload and the
surviving side: XOR the common prefix of `out` with the known side, then
copy `out[known.length .. n]`, where `n` is the recorded length of the
lost side. -/
def reconstruct (out known : List Nat) (n : Nat) : List Nat :=
  List.zipWith Nat.xor (out.take (min known.length n)) (known.take (min known.length n)) ++
    (out.drop known.length).take (n - known.length)

theorem xor_xor_cancel (x y : Nat) : Nat.xor (Nat.xor x y) x = y := by
  show (x ^^^ y) ^^^ x = y
  rw [Nat.xor_comm x y, Nat.xor_assoc, Nat.xor_self, Nat.xor_zero]

theorem zipWith_xor_unzip :
    ∀ (a b : List Nat), List.zipWith Nat.xor (List.zipWith Nat.xor a b) a = b.take a.length
  | [], _ => by simp
  | _ :: _, [] => by simp
  | x :: a, y :: b => by
    simp only [List.zipWith_cons_cons, List.length_cons, List.take_succ_cons, xor_xor_cancel]
    rw [zipWith_xor_unzip a b]

theorem zipWith_take_self (f : α → β → γ) :
    ∀ (a : List α) (b : List β), List.zipWith f a (b.take a.length) = List.zipWith f a b
  | [], _ => by simp
  | _ :: _, [] => by simp
  | x :: a, y :: b => by
    simp only [List.length_cons, List.take_succ_cons, List.zipWith_cons_cons]
    rw [zipWith_take_self f a b]

/-- Unfolding `redundancy_copy` in the case the first argument is the
shorter one. -/
theorem redundancy_copy_of_lt (l r : List Nat) (h : l.length < r.length) :
    redundancy_copy l r = List.zipWith Nat.xor l r ++ r.drop l.length := by
  unfold redundancy_copy redundancy
  simp only [if_pos h, zipWith_take_self]

/-- Unfolding `redundancy_copy` in the case the second argument is no
longer than the first. -/
theorem redundancy_copy_of_ge (l r : List Nat) (h : ¬ l.length < r.length) :
    redundancy_copy l r = List.zipWith Nat.xor r l ++ l.drop r.length := by
  unfold redundancy_copy redundancy
  simp only [if_neg h, zipWith_take_self]

theorem redundancy_copy_length (l r : List Nat) :
    (redundancy_copy l r).length = max l.length r.length := by
  by_cases h : l.length < r.length
  · rw [redundancy_copy_of_lt l r h]
    simp only [List.length_append, List.length_zipWith, List.length_drop]
    omega
  · rw [redundancy_copy_of_ge l r h]
    simp only [List.length_append, List.length_zipWith, List.length_drop]
    omega

theorem getD_drop_sub (t : List Nat) (n i : Nat) (h : n ≤ i) :
    (t.drop n).getD (i - n) 0 = t.getD i 0 := by
  by_cases hi : i < t.length
  · have h1 : i - n < (t.drop n).length := by
      simp only [List.length_drop]; omega
    rw [List.getD_eq_getElem _ _ h1, List.getD_eq_getElem _ _ hi]
    rw [List.getElem_drop]
    congr 1
    omega
  · rw [List.getD_eq_default _ _ (by simp only [List.length_drop]; omega),
      List.getD_eq_default _ _ (by omega)]

theorem redundancy_copy_getD_lt (l r : List Nat) (i : Nat)
    (h : i < min l.length r.length) :
    (redundancy_copy l r).getD i 0 = Nat.xor (l.getD i 0) (r.getD i 0) := by
  have hl : i < l.length := by omega
  have hr : i < r.length := by omega
  by_cases hc : l.length < r.length
  · rw [redundancy_copy_of_lt l r hc]
    have hz : i < (List.zipWith Nat.xor l r).length := by
      simp only [List.length_zipWith]; omega
    rw [List.getD_append _ _ _ _ hz, List.getD_eq_getElem _ _ hz,
      List.getElem_zipWith, List.getD_eq_getElem _ _ hl, List.getD_eq_getElem _ _ hr]
  · rw [redundancy_copy_of_ge l r hc]
    have hz : i < (List.zipWith Nat.xor r l).length := by
      simp only [List.length_zipWith]; omega
    rw [List.getD_append _ _ _ _ hz, List.getD_eq_getElem _ _ hz,
      List.getElem_zipWith, List.getD_eq_getElem _ _ hl, List.getD_eq_getElem _ _ hr]
    exact Nat.xor_comm _ _

theorem redundancy_copy_getD_ge (l r : List Nat) (i : Nat)
    (h : min l.length r.length ≤ i) :
    (redundancy_copy l r).getD i 0 = (longerOf l r).getD i 0 := by
  by_cases hc : l.length < r.length
  · rw [redundancy_copy_of_lt l r hc]
    have hz : (List.zipWith Nat.xor l r).length = l.length := by
      simp only [List.length_zipWith]; omega
    have hi : (List.zipWith Nat.xor l r).length ≤ i := by omega
    rw [List.getD_append_right _ _ _ _ hi, hz, longerOf, if_pos hc]
    exact getD_drop_sub r l.length i (by omega)
  · rw [redundancy_copy_of_ge l r hc]
    have hz : (List.zipWith Nat.xor r l).length = r.length := by
      simp only [List.length_zipWith]; omega
    have hi : (List.zipWith Nat.xor r l).length ≤ i := by omega
    rw [List.getD_append_right _ _ _ _ hi, hz, longerOf, if_neg hc]
    exact getD_drop_sub l r.length i (by omega)

theorem reconstruct_right (l r : List Nat) :
    reconstruct (redundancy_copy l r) l r.length = r := by
  by_cases hc : l.length < r.length
  · rw [redundancy_copy_of_lt l r hc]
    unfold reconstruct
    have hmin : min l.length r.length = l.length := by omega
    have hz : (List.zipWith Nat.xor l r).length = l.length := by
      simp only [List.length_zipWith]; omega
    have htake : List.take (r.length - l.length) (List.drop l.length r) =
        List.drop l.length r := List.take_of_length_le (by simp)
    rw [hmin, List.take_left' hz, List.drop_left' hz, List.take_length,
      zipWith_xor_unzip l r, htake, List.take_append_drop]
  · rw [redundancy_copy_of_ge l r hc]
    unfold reconstruct
    have hmin : min l.length r.length = r.length := by omega
    have hz : (List.zipWith Nat.xor r l).length = r.length := by
      simp only [List.length_zipWith]; omega
    have htail : r.length - l.length = 0 := by omega
    rw [hmin, List.take_left' hz, htail, List.take_zero, List.append_nil,
      ← zipWith_take_self Nat.xor r l,
      List.zipWith_comm_of_comm Nat.xor Nat.xor_comm r (l.take r.length),
      zipWith_xor_unzip (l.take r.length) r]
    simp only [List.length_take]
    rw [List.take_of_length_le (by omega)]

theorem reconstruct_left (l r : List Nat) :
    reconstruct (redundancy_copy l r) r l.length = l := by
  by_cases hc : l.length < r.length
  · rw [redundancy_copy_of_lt l r hc]
    unfold reconstruct
    have hmin : min r.length l.length = l.length := by omega
    have hz : (List.zipWith Nat.xor l r).length = l.length := by
      simp only [List.length_zipWith]; omega
    have htail : l.length - r.length = 0 := by omega
    rw [hmin, List.take_left' hz, htail, List.take_zero, List.append_nil,
      ← zipWith_take_self Nat.xor l r,
      List.zipWith_comm_of_comm Nat.xor Nat.xor_comm l (r.take l.length),
      zipWith_xor_unzip (r.take l.length) l]
    simp only [List.length_take]
    rw [List.take_of_length_le (by omega)]
  · rw [redundancy_copy_of_ge l r hc]
    unfold reconstruct
    have hmin : min r.length l.length = r.length := by omega
    have hz : (List.zipWith Nat.xor r l).length = r.length := by
      simp only [List.length_zipWith]; omega
    have htake : List.take (l.length - r.length) (List.drop r.length l) =
        List.drop r.length l := List.take_of_length_le (by simp)
    rw [hmin, List.take_left' hz, List.drop_left' hz, List.take_length,
      zipWith_xor_unzip r l, htake, List.take_append_drop]

example :
    redundancy_copy [0, 30, 128, 10, 84, 97, 98, 99, 100, 101, 102] [90, 1, 74, 121, 3] =
      [90, 31, 202, 115, 87, 97, 98, 99, 100, 101, 102] := by
  decide

example : redundancy [0, 30, 128, 10, 84] [90, 1, 74, 121, 3] = [90, 31, 202, 115, 87] := by
  decide

/-! ### The block streamer: coverage lemmas (claim C3) -/

/-- One-step unfolding of `fileBlocks`. -/
theorem fileBlocks_eq (bs fid : Nat) (content : List Nat) (bid : Nat) :
    fileBlocks bs fid content bid =
      if (content.take bs).length = 0 then []
      else
        ⟨fid, bid, content.take bs⟩ ::
          (if (content.take bs).length < bs then []
           else fileBlocks bs fid (content.drop bs) (bid + 1)) := by
  rw [fileBlocks]

theorem fileBlocks_spec (bs fid : Nat) (hbs : 0 < bs) :
    ∀ (n : Nat) (content : List Nat) (bid : Nat), content.length ≤ n →
      ((fileBlocks bs fid content bid).map Block.data).flatten = content
      ∧ (∀ j, j + 1 < (fileBlocks bs fid content bid).length →
          ((fileBlocks bs fid content bid).getD j default).data.length = bs)
      ∧ (∀ j, j < (fileBlocks bs fid content bid).length →
          ((fileBlocks bs fid content bid).getD j default).block_id = bid + j
          ∧ ((fileBlocks bs fid content bid).getD j default).file_id = fid) := by
  intro n
  induction n with
  | zero =>
    intro content bid hlen
    have hc : content = [] := List.eq_nil_of_length_eq_zero (by omega)
    subst hc
    rw [fileBlocks_eq]
    simp
  | succ n ih =>
    intro content bid hlen
    rw [fileBlocks_eq]
    by_cases h0 : (content.take bs).length = 0
    · have hc : content = [] := by
        simp only [List.length_take] at h0
        exact List.eq_nil_of_length_eq_zero (by omega)
      subst hc
      simp
    · rw [if_neg h0]
      by_cases hshort : (content.take bs).length < bs
      · rw [if_pos hshort]
        have hc : content.take bs = content := by
          apply List.take_of_length_le
          simp only [List.length_take] at hshort ⊢
          omega

        refine ⟨by simp [hc], ?_, ?_⟩
        · intro j hj
          simp at hj
        · intro j hj
          simp only [List.length_cons, List.length_nil] at hj
          interval_cases j
          simp
      · rw [if_neg hshort]
        have hdrop : (content.drop bs).length ≤ n := by
          simp only [List.length_take] at h0 hshort
          simp only [List.length_drop]
          omega
        obtain ⟨ih1, ih2, ih3⟩ := ih (content.drop bs) (bid + 1) hdrop
        refine ⟨?_, ?_, ?_⟩
        · simp only [List.map_cons, List.flatten_cons, ih1]
          exact List.take_append_drop bs content
        · intro j hj
          cases j with
          | zero =>
            simp only [List.getD_cons_zero, List.length_take] at *
            omega
          | succ j =>
            simp only [List.getD_cons_succ]
            apply ih2
            simp only [List.length_cons] at hj
            omega
        · intro j hj
          cases j with
          | zero => simp
          | succ j =>
            simp only [List.getD_cons_succ]
            have := ih3 j (by simp only [List.length_cons] at hj; omega)
            refine ⟨?_, this.2⟩
            rw [this.1]
            omega

/-- C3. Block streamer coverage: for `block_size > 0`, concatenating the
data of the blocks emitted for a file, in `block_id` order, reproduces the
file's exact byte content; every emitted block except the last of its file
has data length exactly `block_size`; `block_id` starts at 0 per file and
increments by 1; the stream over a file list is the concatenation of the
per-file streams in input order (so `file_id` values follow the input file
order); and an empty file produces no block at all. -/
theorem block_streamer_coverage (bs : Nat) (hbs : 0 < bs) (fid : Nat)
    (content : List Nat) (files : List (Nat × List Nat)) :
    ((fileBlocks bs fid content 0).map Block.data).flatten = content
    ∧ (∀ j, j + 1 < (fileBlocks bs fid content 0).length →
        ((fileBlocks bs fid content 0).getD j default).data.length = bs)
    ∧ (∀ j, j < (fileBlocks bs fid content 0).length →
        ((fileBlocks bs fid content 0).getD j default).block_id = j
        ∧ ((fileBlocks bs fid content 0).getD j default).file_id = fid)
    ∧ (content = [] → fileBlocks bs fid content 0 = [])
    ∧ blockStream bs files = files.flatMap (fun f => fileBlocks bs f.1 f.2 0) := by
  obtain ⟨h1, h2, h3⟩ := fileBlocks_spec bs fid hbs content.length content 0 le_rfl
  refine ⟨h1, h2, ?_, ?_, ?_⟩
  · intro j hj
    have := h3 j hj
    simpa using this
  · intro hc
    subst hc
    rw [fileBlocks_eq]
    simp
  · induction files with
    | nil => rfl
    | cons f rest ihf => simp only [blockStream, List.flatMap_cons, ihf]

/-- Witness for C3: evaluates the theorem at `block_size = 3` on a 4-byte
file, discharging the positivity and index hypotheses concretely. -/
theorem block_streamer_coverage_witness :
    (0 : Nat) < 3
    ∧ ((fileBlocks 3 7 [1, 2, 3, 4] 0).map Block.data).flatten = [1, 2, 3, 4]
    ∧ ((fileBlocks 3 7 [1, 2, 3, 4] 0).getD 0 default).data.length = 3
    ∧ ((fileBlocks 3 7 [1, 2, 3, 4] 0).getD 1 default).block_id = 1 := by
  have h := block_streamer_coverage 3 (by decide) 7 [1, 2, 3, 4] []
  have hlen : (fileBlocks 3 7 [1, 2, 3, 4] 0).length = 2 := by
    simp [fileBlocks_eq]
  exact ⟨by decide, h.1, h.2.1 0 (by rw [hlen]; omega),
    (h.2.2.1 1 (by rw [hlen]; omega)).1⟩

/-- C1. Redundancy recoverability: for every pair of byte blocks `(l, r)`
the pre-encryption payload `out = redundancy_copy l r` has length
`max |l| |r|`, agrees with `l[i] XOR r[i]` below `min |l| |r|` and with
the longer input above it; consequently `r` is reconstructed exactly from
`l`, `|r|` and `out` (XOR the common prefix, then copy `out[|l|..|r|]`),
and symmetrically `l` from `r` and `out`; and every Replication-kind
emission of the engine, trimmed to the recorded `len`, equals the original
block's data exactly. -/
theorem redundancy_recoverability (sha1 : List Nat → List Nat) (block_size : Nat)
    (l r : List Nat) (b : Block) (qlen : Nat) :
    (redundancy_copy l r).length = max l.length r.length
    ∧ (∀ i, i < min l.length r.length →
        (redundancy_copy l r).getD i 0 = Nat.xor (l.getD i 0) (r.getD i 0))
    ∧ (∀ i, min l.length r.length ≤ i → i < max l.length r.length →
        (redundancy_copy l r).getD i 0 = (longerOf l r).getD i 0)
    ∧ reconstruct (redundancy_copy l r) l r.length = r
    ∧ reconstruct (redundancy_copy l r) r l.length = l
    ∧ (replicationEmission sha1 block_size b qlen).1.take
        (replicationEmission sha1 block_size b qlen).2.len = b.data := by
  refine ⟨redundancy_copy_length l r,
    fun i hi => redundancy_copy_getD_lt l r i hi,
    fun i hi _ => redundancy_copy_getD_ge l r i hi,
    reconstruct_right l r, reconstruct_left l r, ?_⟩
  unfold replicationEmission
  simp only [List.take_left' rfl]

/-- Witness for C1: evaluates the theorem at concrete blocks, discharging
the index-bound hypotheses at `i = 1`. -/
theorem redundancy_recoverability_witness :
    ((1 : Nat) < min 2 3 ∧ min 2 3 ≤ 2 ∧ 2 < max 2 3)
    ∧ (redundancy_copy [1, 2] [4, 5, 6]).getD 1 0 = Nat.xor 2 5
    ∧ (redundancy_copy [1, 2] [4, 5, 6]).getD 2 0 = (longerOf [1, 2] [4, 5, 6]).getD 2 0
    ∧ reconstruct (redundancy_copy [1, 2] [4, 5, 6]) [1, 2] 3 = [4, 5, 6] := by
  have h := redundancy_recoverability (fun _ => []) 4 [1, 2] [4, 5, 6] default 0
  refine ⟨by decide, ?_, ?_, h.2.2.2.1⟩
  · have := h.2.1 1 (by decide)
    simpa using this
  · have := h.2.2.1 2 (by decide) (by decide)
    simpa using this

/-- C2. The emission rule of `Redundancy::build`: both streams exhausted
ends the loop with nothing further emitted; exactly one block present
emits a Replication record whose queued payload is the block's data
zero-padded to `block_size`, with outer `len = |data|`, `hash =
sha1 data`, and inner `original = IndexBlock(file_id, block_id, |data|,
sha1 data)`; both present emits a payload that is the XOR of the common
prefix of length `min` followed by the tail of the longer block, padded
to `block_size` with zeros, with outer `len = max`, `hash` taken over the
un-padded bytes, and inner left/right `IndexBlock`s carrying each input
block's own length and hash. -/
theorem build_emission_rule (sha1 : List Nat → List Nat) (block_size : Nat)
    (l r : Block) (ls rs : List Block) (qlen : Nat) :
    buildEmissions sha1 block_size [] [] qlen = []
    ∧ buildEmissions sha1 block_size (l :: ls) [] qlen =
        (l.data ++ List.replicate (block_size - l.data.length) 0,
          { kind := .Replication ⟨l.file_id, l.block_id, l.data.length, sha1 l.data⟩
            id := qlen, len := l.data.length, hash := sha1 l.data }) ::
          buildEmissions sha1 block_size ls [] (nextQueueLen qlen)
    ∧ buildEmissions sha1 block_size [] (r :: rs) qlen =
        (r.data ++ List.replicate (block_size - r.data.length) 0,
          { kind := .Replication ⟨r.file_id, r.block_id, r.data.length, sha1 r.data⟩
            id := qlen, len := r.data.length, hash := sha1 r.data }) ::
          buildEmissions sha1 block_size [] rs (nextQueueLen qlen)
    ∧ buildEmissions sha1 block_size (l :: ls) (r :: rs) qlen =
        ((List.zipWith Nat.xor l.data r.data
              ++ (longerOf l.data r.data).drop (min l.data.length r.data.length))
            ++ List.replicate
                (block_size - max l.data.length r.data.length) 0,
          { kind := .Redundancy
              ⟨l.file_id, l.block_id, l.data.length, sha1 l.data⟩
              ⟨r.file_id, r.block_id, r.data.length, sha1 r.data⟩
            id := qlen, len := max l.data.length r.data.length
            hash := sha1 (redundancy_copy l.data r.data) }) ::
          buildEmissions sha1 block_size ls rs (nextQueueLen qlen) := by
  have hsplit : redundancy_copy l.data r.data =
      List.zipWith Nat.xor l.data r.data
        ++ (longerOf l.data r.data).drop (min l.data.length r.data.length) := by
    by_cases hc : l.data.length < r.data.length
    · rw [redundancy_copy_of_lt _ _ hc, longerOf, if_pos hc, min_eq_left (by omega)]
    · rw [redundancy_copy_of_ge _ _ hc, longerOf, if_neg hc, min_eq_right (by omega),
        List.zipWith_comm_of_comm Nat.xor Nat.xor_comm r.data l.data]
  refine ⟨?_, ?_, ?_, ?_⟩
  · simp only [buildEmissions]
  · simp only [buildEmissions, replicationEmission]
  · simp only [buildEmissions, replicationEmission]
  · simp only [buildEmissions, redundancyEmission]
    rw [redundancy_copy_length, hsplit]

/-! ## src/unit.rs and src/unitset.rs -/

/-- `File` (src/unit.rs, lines 8-12), reduced to its length; the `path`
field is filesystem data irrelevant to the length claims. -/
structure File where
  len : Nat
deriving Repr, DecidableEq, Inhabited

/-- `Unit` (src/unit.rs, lines 32-37): one directory's non-directory
contents (`path` omitted as filesystem data).  Named `Unit'` because
Lean's core `Unit` occupies the source name. -/
structure Unit' where
  parent : Nat
  len : Nat
  files : List File
deriving Repr, DecidableEq, Inhabited

/-- `Unit::merge` (src/unit.rs, lines 96-100): append the source unit's
files to the destination, add its length to the destination, zero the
source's length (its file vector is drained by `append`).  Returned as the
pair (destination after, source after). -/
def Unit'.merge (self other : Unit') : Unit' × Unit' :=
  (⟨self.parent, self.len + other.len, self.files ++ other.files⟩,
   ⟨other.parent, 0, []⟩)

/-- `UnitSet` (src/unitset.rs, line 45): `UnitSet(Vec<Unit>, u64)` — the
ordered units and the cached total length. -/
structure UnitSet where
  units : List Unit'
  total : Nat
deriving Repr, DecidableEq, Inhabited

/-- `UnitSet::len` (src/unitset.rs, lines 97-99): returns the cached
total. -/
def UnitSet.len (s : UnitSet) : Nat := s.total

/-- Sum of the actual unit lengths, the right-hand side of the documented
invariant `total_len == Σ units[i].len`. -/
def UnitSet.sumLens (s : UnitSet) : Nat := (s.units.map Unit'.len).sum

/-- The documented `UnitSet` invariant: the cached total equals the sum of
the unit lengths. -/
def UnitSet.inv (s : UnitSet) : Prop := s.total = s.sumLens

instance (s : UnitSet) : Decidable s.inv := by
  unfold UnitSet.inv
  infer_instance

/-- `UnitSet::shift_to` (src/unitset.rs, lines 158-164): pop the last unit
of `self` (`EmptyUnitSet`, modelled `none`, when there is none), subtract
its length from self's cached total, add it to the other's cached total
and insert the unit at the other's head. -/
def UnitSet.shift_to (s o : UnitSet) : Option (UnitSet × UnitSet) :=
  match s.units.getLast? with
  | none => none
  | some last =>
      some (⟨s.units.dropLast, s.total - last.len⟩,
        ⟨last :: o.units, o.total + last.len⟩)

/-- `UnitSet::shift_from` (src/unitset.rs, lines 143-148): remove the
other set's first unit (the `assert!` on non-emptiness is modelled
`none`), add its length to self's cached total and push the unit at
self's back.  The source leaves the other set's cached total unchanged. -/
def UnitSet.shift_from (s o : UnitSet) : Option (UnitSet × UnitSet) :=
  match o.units with
  | [] => none
  | first :: rest =>
      some (⟨s.units ++ [first], s.total + first.len⟩, ⟨rest, o.total⟩)

/-- `UnitSet::undo_shift` (src/unitset.rs, lines 150-156): remove self's
last unit (the `assert!` on non-emptiness is modelled `none`), subtract
its length from self's cached total and insert the unit at the other's
head.  The source leaves the other set's cached total unchanged. -/
def UnitSet.undo_shift (s o : UnitSet) : Option (UnitSet × UnitSet) :=
  match s.units.getLast? with
  | none => none
  | some last =>
      some (⟨s.units.dropLast, s.total - last.len⟩, ⟨last :: o.units, o.total⟩)

/-- A call in a sequence of pairwise `UnitSet` operations; the `Bool`
selects which of the two sets plays the role of `self`. -/
inductive PairOp where
  | shiftTo : Bool → PairOp
  | shiftFrom : Bool → PairOp
  | undoShift : Bool → PairOp
deriving Repr, DecidableEq

/-- Apply one pairwise operation to a pair of `UnitSet`s. -/
def applyPairOp (op : PairOp) (p : UnitSet × UnitSet) :
    Option (UnitSet × UnitSet) :=
  match op with
  | .shiftTo true => p.1.shift_to p.2
  | .shiftTo false => (p.2.shift_to p.1).map (fun q => (q.2, q.1))
  | .shiftFrom true => p.1.shift_from p.2
  | .shiftFrom false => (p.2.shift_from p.1).map (fun q => (q.2, q.1))
  | .undoShift true => p.1.undo_shift p.2
  | .undoShift false => (p.2.undo_shift p.1).map (fun q => (q.2, q.1))

/-- Apply a sequence of pairwise operations; `none` as soon as one call
signals `EmptyUnitSet` or an assertion failure. -/
def applyPairSeq : List PairOp → UnitSet × UnitSet → Option (UnitSet × UnitSet)
  | [], p => some p
  | op :: ops, p => (applyPairOp op p).bind (applyPairSeq ops)

theorem sumLens_of_getLast? :
    ∀ (l : List Unit') (last : Unit'), l.getLast? = some last →
      ((l.dropLast.map Unit'.len).sum + last.len = (l.map Unit'.len).sum)
  | [], last, h => by simp at h
  | [x], last, h => by
    simp only [List.getLast?_singleton, Option.some.injEq] at h
    subst h
    simp
  | x :: y :: rest, last, h => by
    rw [List.getLast?_cons_cons] at h
    have ih := sumLens_of_getLast? (y :: rest) last h
    simp only [List.dropLast_cons₂, List.map_cons, List.sum_cons] at ih ⊢
    omega

theorem shift_to_sumLens (s o s' o' : UnitSet)
    (h : s.shift_to o = some (s', o')) :
    s'.sumLens + o'.sumLens = s.sumLens + o.sumLens := by
  unfold UnitSet.shift_to at h
  cases hl : s.units.getLast? with
  | none => rw [hl] at h; simp at h
  | some last =>
    rw [hl] at h
    simp only [Option.some.injEq, Prod.mk.injEq] at h
    obtain ⟨h1, h2⟩ := h
    subst h1; subst h2
    have := sumLens_of_getLast? s.units last hl
    simp only [UnitSet.sumLens, List.map_cons, List.sum_cons]
    omega

theorem shift_from_sumLens (s o s' o' : UnitSet)
    (h : s.shift_from o = some (s', o')) :
    s'.sumLens + o'.sumLens = s.sumLens + o.sumLens := by
  unfold UnitSet.shift_from at h
  cases hl : o.units with
  | nil => rw [hl] at h; simp at h
  | cons first rest =>
    rw [hl] at h
    simp only [Option.some.injEq, Prod.mk.injEq] at h
    obtain ⟨h1, h2⟩ := h
    subst h1; subst h2
    simp only [UnitSet.sumLens, List.map_append, List.sum_append, hl,
      List.map_cons, List.sum_cons]
    simp
    omega

theorem undo_shift_sumLens (s o s' o' : UnitSet)
    (h : s.undo_shift o = some (s', o')) :
    s'.sumLens + o'.sumLens = s.sumLens + o.sumLens := by
  unfold UnitSet.undo_shift at h
  cases hl : s.units.getLast? with
  | none => rw [hl] at h; simp at h
  | some last =>
    rw [hl] at h
    simp only [Option.some.injEq, Prod.mk.injEq] at h
    obtain ⟨h1, h2⟩ := h
    subst h1; subst h2
    have := sumLens_of_getLast? s.units last hl
    simp only [UnitSet.sumLens, List.map_cons, List.sum_cons]
    omega

theorem applyPairOp_sumLens (op : PairOp) (p p' : UnitSet × UnitSet)
    (h : applyPairOp op p = some p') :
    p'.1.sumLens + p'.2.sumLens = p.1.sumLens + p.2.sumLens := by
  cases op with
  | shiftTo b =>
    cases b with
    | true =>
      have := shift_to_sumLens p.1 p.2 p'.1 p'.2
      exact this (by simpa [applyPairOp] using h)
    | false =>
      simp only [applyPairOp, Option.map_eq_some'] at h
      obtain ⟨q, hq, hp⟩ := h
      have := shift_to_sumLens p.2 p.1 q.1 q.2 (by simpa using hq)
      subst hp
      simpa using by omega
  | shiftFrom b =>
    cases b with
    | true =>
      have := shift_from_sumLens p.1 p.2 p'.1 p'.2
      exact this (by simpa [applyPairOp] using h)
    | false =>
      simp only [applyPairOp, Option.map_eq_some'] at h
      obtain ⟨q, hq, hp⟩ := h
      have := shift_from_sumLens p.2 p.1 q.1 q.2 (by simpa using hq)
      subst hp
      simpa using by omega
  | undoShift b =>
    cases b with
    | true =>
      have := undo_shift_sumLens p.1 p.2 p'.1 p'.2
      exact this (by simpa [applyPairOp] using h)
    | false =>
      simp only [applyPairOp, Option.map_eq_some'] at h
      obtain ⟨q, hq, hp⟩ := h
      have := undo_shift_sumLens p.2 p.1 q.1 q.2 (by simpa using hq)
      subst hp
      simpa using by omega

theorem applyPairSeq_sumLens :
    ∀ (ops : List PairOp) (p p' : UnitSet × UnitSet),
      applyPairSeq ops p = some p' →
      p'.1.sumLens + p'.2.sumLens = p.1.sumLens + p.2.sumLens
  | [], p, p', h => by
    simp only [applyPairSeq, Option.some.injEq] at h
    subst h; rfl
  | op :: ops, p, p', h => by
    simp only [applyPairSeq, Option.bind_eq_some] at h
    obtain ⟨q, hq, hrest⟩ := h
    rw [applyPairSeq_sumLens ops q p' hrest]
    exact applyPairOp_sumLens op p q hq

/-- Counterexample to C4 as stated: `shift_from` moves a unit of length 5
out of the second set but leaves that set's cached total at 5 (the source
never subtracts it, src/unitset.rs lines 143-148), so the invariant
`total_len == Σ units[i].len` fails on the result and the combined cached
total grows from 5 to 10. -/
theorem length_conservation_counterexample :
    UnitSet.shift_from (UnitSet.mk [] 0) (UnitSet.mk [Unit'.mk 0 5 []] 5)
      = some (UnitSet.mk [Unit'.mk 0 5 []] 5, UnitSet.mk [] 5)
    ∧ (UnitSet.mk [Unit'.mk 0 5 []] 5).len + (UnitSet.mk [] 5).len
        ≠ (UnitSet.mk [] 0).len + (UnitSet.mk [Unit'.mk 0 5 []] 5).len
    ∧ ¬ (UnitSet.mk [] 5).inv := by
  exact ⟨rfl, by decide, by decide⟩

/-- C4 (amended). Length conservation: `shift_to` preserves the invariant
`total_len == Σ units[i].len` on both sets, conserves the combined cached
total, and moves exactly the tail unit's length from self's total to the
other's total; `Unit::merge` adds the source unit's length to the
destination while zeroing the source; and every sequence of `shift_to` /
`shift_from` / `undo_shift` calls between two UnitSets conserves the
combined sum of actual unit lengths (`shift_from` and `undo_shift` update
only self's cached total, leaving the other set's cached total stale, so
the cached-total versions of the invariant and of combined conservation
hold only for `shift_to`). -/
theorem length_conservation_amended :
    (∀ s o s' o' : UnitSet, s.inv → o.inv → s.shift_to o = some (s', o') →
        s'.inv ∧ o'.inv
        ∧ s'.len + o'.len = s.len + o.len
        ∧ ∀ last, s.units.getLast? = some last →
            s'.len = s.len - last.len ∧ o'.len = o.len + last.len)
    ∧ (∀ u v : Unit', (u.merge v).1.len = u.len + v.len ∧ (u.merge v).2.len = 0)
    ∧ (∀ ops p p', applyPairSeq ops p = some p' →
        p'.1.sumLens + p'.2.sumLens = p.1.sumLens + p.2.sumLens) := by
  refine ⟨?_, fun u v => ⟨rfl, rfl⟩, applyPairSeq_sumLens⟩
  intro s o s' o' hs ho h
  unfold UnitSet.shift_to at h
  cases hl : s.units.getLast? with
  | none => rw [hl] at h; simp at h
  | some last =>
    rw [hl] at h
    simp only [Option.some.injEq, Prod.mk.injEq] at h
    obtain ⟨h1, h2⟩ := h
    subst h1; subst h2
    have hsum := sumLens_of_getLast? s.units last hl
    unfold UnitSet.inv UnitSet.sumLens UnitSet.len at *
    simp only [List.map_cons, List.sum_cons]
    refine ⟨by omega, by omega, by omega, ?_⟩
    intro last' hl'
    simp only [hl, Option.some.injEq] at hl'
    subst hl'
    exact ⟨rfl, rfl⟩

/-- Witness for the amended C4: a concrete `shift_to` between a one-unit
set and an empty set, and a concrete `shift_from` sequence, with all
hypotheses discharged by evaluation. -/
theorem length_conservation_amended_witness :
    ((UnitSet.mk [Unit'.mk 0 3 []] 3).inv ∧ (UnitSet.mk [] 0).inv
      ∧ ((UnitSet.mk [Unit'.mk 0 3 []] 3).shift_to (UnitSet.mk [] 0)
          = some (UnitSet.mk [] 0, UnitSet.mk [Unit'.mk 0 3 []] 3))
      ∧ (UnitSet.mk [] 0).inv ∧ (UnitSet.mk [Unit'.mk 0 3 []] 3).inv)
    ∧ (applyPairSeq [PairOp.shiftFrom true]
          (UnitSet.mk [] 0, UnitSet.mk [Unit'.mk 0 5 []] 5)
        = some (UnitSet.mk [Unit'.mk 0 5 []] 5, UnitSet.mk [] 5)
      ∧ (UnitSet.mk [Unit'.mk 0 5 []] 5).sumLens + (UnitSet.mk [] 5).sumLens
          = (UnitSet.mk [] 0).sumLens + (UnitSet.mk [Unit'.mk 0 5 []] 5).sumLens) := by
  have h := length_conservation_amended
  have h1 := h.1 (UnitSet.mk [Unit'.mk 0 3 []] 3) (UnitSet.mk [] 0)
    (UnitSet.mk [] 0) (UnitSet.mk [Unit'.mk 0 3 []] 3)
    (by decide) (by decide) (by decide)
  have h2 := h.2.2 [PairOp.shiftFrom true]
    (UnitSet.mk [] 0, UnitSet.mk [Unit'.mk 0 5 []] 5)
    (UnitSet.mk [Unit'.mk 0 5 []] 5, UnitSet.mk [] 5) (by decide)
  exact ⟨⟨by decide, by decide, by decide, h1.1, h1.2.1⟩, ⟨by decide, h2⟩⟩

/-! ## src/disperse.rs — the disperser

The source computes in `f64`; the model computes the radicands exactly in
`ℚ` and takes the final square root (`measure_impl`'s `.sqrt()`) in `ℝ`.
Every comparison the code performs between square roots of nonnegative
radicands holds iff the corresponding comparison of the radicands holds
(`Real.sqrt` is strictly monotone on nonnegative arguments), so the
decision structure below mirrors the code's comparisons faithfully. -/

/-- The fixed mean of `Disperse::new` (src/disperse.rs, lines 17-26):
`Σ media[i].len() / media.len()`. -/
def meanOf (media : List UnitSet) : ℚ :=
  ((media.map UnitSet.len).sum : ℚ) / (media.length : ℚ)

/-- The radicand of `measure_impl` (src/disperse.rs, lines 142-149):
`Σ (lenᵢ − mean)² / (media_lens.len() − 1)` (a `usize` subtraction in the
denominator). -/
def measureSq (mean : ℚ) (media_lens : List Nat) : ℚ :=
  (media_lens.map (fun len : Nat => ((len : ℚ) - mean) ^ 2)).sum
    / ((media_lens.length - 1 : ℕ) : ℚ)

/-- `measure_impl` (src/disperse.rs, lines 142-149): the square root of
the variance-like sum. -/
noncomputable def measure_impl (mean : ℚ) (media_lens : List Nat) : ℝ :=
  Real.sqrt (measureSq mean media_lens)

/-- The predicted lengths of `Candidate::new` (src/disperse.rs, lines
115-128): `media.iter().map(len).enumerate().map(...)` subtracting the
shifted unit's length at `from_medium` and adding it at
`from_medium + 1`. -/
def newLens (lens : List Nat) (from_medium u : Nat) : List Nat :=
  lens.mapIdx (fun i len =>
    if i = from_medium then len - u
    else if i = from_medium + 1 then len + u
    else len)

/-- `Candidate` (src/disperse.rs, lines 103-107).  `value` stores the
radicand of the candidate's measure (the source stores the `f64` square
root; see the module comment). -/
structure Candidate where
  from_medium : Nat
  value : ℚ
deriving Repr, DecidableEq

/-- `Candidate::new` (src/disperse.rs, lines 110-132): `EmptyUnitSet`
(modelled `none`) when `media[from_medium]` has no last unit, otherwise
the candidate whose value is the measure of the predicted lengths. -/
def candidateNew (media : List UnitSet) (from_medium : Nat) (mean : ℚ) :
    Option Candidate :=
  match (media.getD from_medium default).units.getLast? with
  | none => none
  | some last_unit =>
      some ⟨from_medium,
        measureSq mean (newLens (media.map UnitSet.len) from_medium last_unit.len)⟩

/-- The candidate-generation loop of `Disperse::disperse` (src/disperse.rs,
lines 49-58): for each `medium_index` in `0..media.len()-1` whose set has
positive cached length, keep the successfully constructed candidate. -/
def candidatesOf (media : List UnitSet) (mean : ℚ) : List Candidate :=
  (List.range (media.length - 1)).filterMap fun i =>
    if (media.getD i default).len > 0 then candidateNew media i mean else none

/-- `minmax_by_key(...).into_option().0` (src/disperse.rs, lines 61-66):
the first candidate attaining the minimal value. -/
def minByValue : List Candidate → Option Candidate
  | [] => none
  | c :: rest =>
      match minByValue rest with
      | none => some c
      | some m => if m.value < c.value then some m else some c

/-- `Candidate::execute` (src/disperse.rs, lines 134-139): shift the last
unit of `media[from_medium]` to the head of `media[from_medium + 1]`.
The `unwrap()` branch (impossible for generated candidates) leaves the
array unchanged. -/
def executeCand (c : Candidate) (media : List UnitSet) : List UnitSet :=
  match (media.getD c.from_medium default).shift_to
      (media.getD (c.from_medium + 1) default) with
  | none => media
  | some q => (media.set c.from_medium q.1).set (c.from_medium + 1) q.2

/-- `is_goal_met` (src/disperse.rs, lines 39-41): `measure / mean * 100 <
goal`, stated on the exact rationals.  For `mean > 0` this is equivalent
to the `f64` comparison on the square root (lemma `goalMet_iff_real`);
for `mean = 0` the `f64` comparison is `NaN < goal`, which is false, as
is this proposition. -/
def goalMet (goal mean : ℚ) (lens : List Nat) : Prop :=
  0 < goal * mean ∧ 10000 * measureSq mean lens < goal ^ 2 * mean ^ 2

instance (goal mean : ℚ) (lens : List Nat) : Decidable (goalMet goal mean lens) := by
  unfold goalMet
  infer_instance

/-- One iteration of the `while` loop of `Disperse::disperse`
(src/disperse.rs, lines 43-100): `none` when the loop stops (goal met, no
candidates, or the best candidate is no strict improvement), otherwise
the media array after executing the best candidate. -/
def stepD (goal mean : ℚ) (media : List UnitSet) : Option (List UnitSet) :=
  if goalMet goal mean (media.map UnitSet.len) then none
  else
    match minByValue (candidatesOf media mean) with
    | none => none
    | some best =>
        if best.value < measureSq mean (media.map UnitSet.len) then
          some (executeCand best media)
        else none

/-- The `while` loop of `Disperse::disperse`, with explicit fuel: the
loop body runs until `stepD` stops or the fuel runs out. -/
def disperseFuel (goal mean : ℚ) : Nat → List UnitSet → List UnitSet
  | 0, media => media
  | fuel + 1, media =>
      match stepD goal mean media with
      | none => media
      | some media2 => disperseFuel goal mean fuel media2

/-- Total number of units across the media array. -/
def unitCount (media : List UnitSet) : Nat :=
  (media.map (fun s => s.units.length)).sum

/-- Weighted unit count `Σ i · |media[i].units|`, the termination measure:
every executed shift moves one unit one medium to the right. -/
def unitWeight : Nat → List UnitSet → Nat
  | _, [] => 0
  | k, s :: rest => k * s.units.length + unitWeight (k + 1) rest

theorem getD_set_ne {α : Type} (l : List α) (i j : Nat) (a d : α)
    (h : i ≠ j) : (l.set i a).getD j d = l.getD j d := by
  by_cases hj : j < l.length
  · rw [List.getD_eq_getElem _ _ (by simpa using hj), List.getD_eq_getElem _ _ hj,
      List.getElem_set]
    simp [h]
  · rw [List.getD_eq_default _ _ (by simpa using hj),
      List.getD_eq_default _ _ (by omega)]

theorem getD_set_self {α : Type} (l : List α) (i : Nat) (a d : α)
    (h : i < l.length) : (l.set i a).getD i d = a := by
  rw [List.getD_eq_getElem _ _ (by simpa using h), List.getElem_set]
  simp

theorem map_sum_set (f : UnitSet → Nat) :
    ∀ (l : List UnitSet) (j : Nat) (x : UnitSet), j < l.length →
      ((l.set j x).map f).sum + f (l.getD j default) = (l.map f).sum + f x
  | [], j, x, h => by simp at h
  | a :: rest, 0, x, h => by
    simp only [List.set_cons_zero, List.map_cons, List.sum_cons, List.getD_cons_zero]
    omega
  | a :: rest, j + 1, x, h => by
    simp only [List.set_cons_succ, List.map_cons, List.sum_cons, List.getD_cons_succ]
    have := map_sum_set f rest j x (by simpa using Nat.lt_of_succ_lt_succ h)
    omega

theorem unitWeight_set :
    ∀ (l : List UnitSet) (k j : Nat) (x : UnitSet), j < l.length →
      unitWeight k (l.set j x) + (k + j) * (l.getD j default).units.length
        = unitWeight k l + (k + j) * x.units.length
  | [], k, j, x, h => by simp at h
  | a :: rest, k, 0, x, h => by
    simp only [List.set_cons_zero, unitWeight, List.getD_cons_zero, Nat.add_zero]
    omega
  | a :: rest, k, j + 1, x, h => by
    simp only [List.set_cons_succ, unitWeight, List.getD_cons_succ]
    have hrec := unitWeight_set rest (k + 1) j x (by simpa using Nat.lt_of_succ_lt_succ h)
    have hkj : k + (j + 1) = k + 1 + j := by omega
    rw [hkj]
    omega

theorem unitWeight_le :
    ∀ (l : List UnitSet) (k : Nat), unitWeight k l ≤ (k + l.length - 1) * unitCount l
  | [], k => by simp [unitWeight, unitCount]
  | a :: rest, k => by
    simp only [unitWeight, unitCount, List.map_cons, List.sum_cons, List.length_cons]
    have ih := unitWeight_le rest (k + 1)
    unfold unitCount at ih
    have hk : k ≤ k + rest.length := by omega
    calc k * a.units.length + unitWeight (k + 1) rest
        ≤ k * a.units.length + (k + 1 + rest.length - 1) * (rest.map (fun s => s.units.length)).sum := by omega
      _ ≤ (k + rest.length) * a.units.length
            + (k + rest.length) * (rest.map (fun s => s.units.length)).sum := by
          have h1 : k + 1 + rest.length - 1 = k + rest.length := by omega
          rw [h1]
          have := Nat.mul_le_mul_right a.units.length hk
          omega
      _ = (k + (rest.length + 1) - 1) * (a.units.length + (rest.map (fun s => s.units.length)).sum) := by
          have h2 : k + (rest.length + 1) - 1 = k + rest.length := by omega
          rw [h2, Nat.mul_add]

theorem qsum_map_set (f : Nat → ℚ) :
    ∀ (l : List Nat) (j : Nat) (x : Nat), j < l.length →
      ((l.set j x).map f).sum = (l.map f).sum - f (l.getD j 0) + f x
  | [], j, x, h => by simp at h
  | a :: rest, 0, x, h => by
    simp only [List.set_cons_zero, List.map_cons, List.sum_cons, List.getD_cons_zero]
    ring
  | a :: rest, j + 1, x, h => by
    simp only [List.set_cons_succ, List.map_cons, List.sum_cons, List.getD_cons_succ]
    rw [qsum_map_set f rest j x (by simpa using Nat.lt_of_succ_lt_succ h)]
    ring

theorem getD_map_len (media : List UnitSet) (i : Nat) :
    (media.map UnitSet.len).getD i 0 = (media.getD i default).len := by
  by_cases hi : i < media.length
  · rw [List.getD_eq_getElem _ _ (by simpa using hi), List.getD_eq_getElem _ _ hi,
      List.getElem_map]
  · rw [List.getD_eq_default _ _ (by simpa using hi), List.getD_eq_default _ _ (by omega)]
    rfl

theorem newLens_eq_set_set (lens : List Nat) (i u : Nat) (h : i + 1 < lens.length) :
    newLens lens i u
      = (lens.set i (lens.getD i 0 - u)).set (i + 1) (lens.getD (i + 1) 0 + u) := by
  apply List.ext_getElem
  · simp [newLens]
  · intro k h1 h2
    simp only [newLens, List.getElem_mapIdx, List.getElem_set]
    by_cases hk1 : k = i
    · subst hk1
      rw [if_pos rfl, if_neg (by omega), if_pos rfl,
        List.getD_eq_getElem _ _ (by omega)]
    · by_cases hk2 : k = i + 1
      · subst hk2
        rw [if_neg (by omega), if_pos rfl, if_pos rfl,
          List.getD_eq_getElem _ _ (by omega)]
      · rw [if_neg (by omega), if_neg (by omega), if_neg (by omega),
          if_neg (by omega)]

theorem measureSq_nonneg (mean : ℚ) (lens : List Nat) :
    0 ≤ measureSq mean lens := by
  unfold measureSq
  apply div_nonneg
  · apply List.sum_nonneg
    intro x hx
    obtain ⟨len, _, hlen⟩ := List.mem_map.mp hx
    rw [← hlen]
    positivity
  · positivity

theorem mem_candidatesOf (media : List UnitSet) (mean : ℚ) (c : Candidate)
    (h : c ∈ candidatesOf media mean) :
    c.from_medium + 1 < media.length
    ∧ (media.getD c.from_medium default).len > 0
    ∧ ∃ last, (media.getD c.from_medium default).units.getLast? = some last
        ∧ c.value = measureSq mean
            (newLens (media.map UnitSet.len) c.from_medium last.len) := by
  unfold candidatesOf at h
  rw [List.mem_filterMap] at h
  obtain ⟨i, hrange, hf⟩ := h
  rw [List.mem_range] at hrange
  split_ifs at hf with hpos
  · unfold candidateNew at hf
    cases hl : (media.getD i default).units.getLast? with
    | none => rw [hl] at hf; simp at hf
    | some last =>
      rw [hl] at hf
      simp only [Option.some.injEq] at hf
      subst hf
      exact ⟨show i + 1 < media.length by omega, hpos, last, hl, rfl⟩

theorem minByValue_cons (c : Candidate) (rest : List Candidate) :
    minByValue (c :: rest) =
      match minByValue rest with
      | none => some c
      | some m => if m.value < c.value then some m else some c := rfl

theorem minByValue_eq_none :
    ∀ (l : List Candidate), minByValue l = none → l = []
  | [], _ => rfl
  | c :: rest, h => by
    rw [minByValue_cons] at h
    cases hr : minByValue rest with
    | none => rw [hr] at h; dsimp only at h; exact absurd h (by simp)
    | some m2 =>
      rw [hr] at h
      dsimp only at h
      split_ifs at h

theorem minByValue_mem :
    ∀ (l : List Candidate) (m : Candidate), minByValue l = some m → m ∈ l
  | [], m, h => by simp [minByValue] at h
  | c :: rest, m, h => by
    rw [minByValue_cons] at h
    cases hr : minByValue rest with
    | none =>
      rw [hr] at h
      dsimp only at h
      simp only [Option.some.injEq] at h
      subst h
      exact List.mem_cons_self c rest
    | some m2 =>
      rw [hr] at h
      dsimp only at h
      split_ifs at h with hlt
      · simp only [Option.some.injEq] at h
        subst h
        exact List.mem_cons_of_mem c (minByValue_mem rest m2 hr)
      · simp only [Option.some.injEq] at h
        subst h
        exact List.mem_cons_self c rest

theorem minByValue_le :
    ∀ (l : List Candidate) (m : Candidate), minByValue l = some m →
      ∀ c ∈ l, m.value ≤ c.value
  | [], m, h => by simp [minByValue] at h
  | c :: rest, m, h => by
    rw [minByValue_cons] at h
    cases hr : minByValue rest with
    | none =>
      have hrest := minByValue_eq_none rest hr
      subst hrest
      rw [hr] at h
      dsimp only at h
      simp only [Option.some.injEq] at h
      subst h
      intro d hd
      simp only [List.mem_singleton] at hd
      subst hd
      exact le_refl _
    | some m2 =>
      rw [hr] at h
      dsimp only at h
      have ihle := minByValue_le rest m2 hr
      split_ifs at h with hlt
      · simp only [Option.some.injEq] at h
        subst h
        intro d hd
        rcases List.mem_cons.mp hd with hd | hd
        · subst hd; exact le_of_lt hlt
        · exact ihle d hd
      · simp only [Option.some.injEq] at h
        subst h
        intro d hd
        rcases List.mem_cons.mp hd with hd | hd
        · subst hd; exact le_refl _
        · exact le_trans (le_of_not_lt hlt) (ihle d hd)

theorem executeCand_eq (c : Candidate) (media : List UnitSet) (last : Unit')
    (hl : (media.getD c.from_medium default).units.getLast? = some last) :
    executeCand c media =
      (media.set c.from_medium
          ⟨(media.getD c.from_medium default).units.dropLast,
            (media.getD c.from_medium default).total - last.len⟩).set
        (c.from_medium + 1)
        ⟨last :: (media.getD (c.from_medium + 1) default).units,
          (media.getD (c.from_medium + 1) default).total + last.len⟩ := by
  unfold executeCand UnitSet.shift_to
  rw [hl]

theorem executeCand_lens (c : Candidate) (media : List UnitSet) (last : Unit')
    (hi : c.from_medium + 1 < media.length)
    (hl : (media.getD c.from_medium default).units.getLast? = some last) :
    (executeCand c media).map UnitSet.len
      = newLens (media.map UnitSet.len) c.from_medium last.len := by
  rw [executeCand_eq c media last hl, List.map_set, List.map_set,
    newLens_eq_set_set _ _ _ (by simpa using hi), getD_map_len, getD_map_len]
  rfl

theorem units_ne_nil_of_getLast? (s : UnitSet) (last : Unit')
    (hl : s.units.getLast? = some last) : s.units ≠ [] := by
  intro hnil
  rw [hnil] at hl
  simp at hl

theorem executeCand_length (c : Candidate) (media : List UnitSet) (last : Unit')
    (hl : (media.getD c.from_medium default).units.getLast? = some last) :
    (executeCand c media).length = media.length := by
  rw [executeCand_eq c media last hl]
  simp

theorem executeCand_unitCount (c : Candidate) (media : List UnitSet) (last : Unit')
    (hi : c.from_medium + 1 < media.length)
    (hl : (media.getD c.from_medium default).units.getLast? = some last) :
    unitCount (executeCand c media) = unitCount media := by
  rw [executeCand_eq c media last hl]
  have hne := units_ne_nil_of_getLast? _ last hl
  have hcI : 1 ≤ (media.getD c.from_medium default).units.length :=
    List.length_pos.mpr hne
  have h1 := map_sum_set (fun s => s.units.length)
    (media.set c.from_medium
      ⟨(media.getD c.from_medium default).units.dropLast,
        (media.getD c.from_medium default).total - last.len⟩)
    (c.from_medium + 1)
    ⟨last :: (media.getD (c.from_medium + 1) default).units,
      (media.getD (c.from_medium + 1) default).total + last.len⟩
    (by simpa using hi)
  have h2 := map_sum_set (fun s => s.units.length) media c.from_medium
    ⟨(media.getD c.from_medium default).units.dropLast,
      (media.getD c.from_medium default).total - last.len⟩
    (by omega)
  rw [getD_set_ne _ _ _ _ _ (by omega)] at h1
  unfold unitCount
  simp only [List.length_cons, List.length_dropLast] at h1 h2 ⊢
  omega

theorem executeCand_unitWeight (c : Candidate) (media : List UnitSet) (last : Unit')
    (hi : c.from_medium + 1 < media.length)
    (hl : (media.getD c.from_medium default).units.getLast? = some last) :
    unitWeight 0 (executeCand c media) = unitWeight 0 media + 1 := by
  rw [executeCand_eq c media last hl]
  have hne := units_ne_nil_of_getLast? _ last hl
  have hcI : 1 ≤ (media.getD c.from_medium default).units.length :=
    List.length_pos.mpr hne
  have h1 := unitWeight_set
    (media.set c.from_medium
      ⟨(media.getD c.from_medium default).units.dropLast,
        (media.getD c.from_medium default).total - last.len⟩)
    0 (c.from_medium + 1)
    ⟨last :: (media.getD (c.from_medium + 1) default).units,
      (media.getD (c.from_medium + 1) default).total + last.len⟩
    (by simpa using hi)
  have h2 := unitWeight_set media 0 c.from_medium
    ⟨(media.getD c.from_medium default).units.dropLast,
      (media.getD c.from_medium default).total - last.len⟩
    (by omega)
  rw [getD_set_ne _ _ _ _ _ (by omega)] at h1
  simp only [List.length_cons, List.length_dropLast, Nat.zero_add] at h1 h2
  have e1 : (c.from_medium + 1) * ((media.getD (c.from_medium + 1) default).units.length + 1)
      = (c.from_medium + 1) * (media.getD (c.from_medium + 1) default).units.length
        + (c.from_medium + 1) := Nat.mul_succ _ _
  have e2 : c.from_medium * (media.getD c.from_medium default).units.length
      = c.from_medium * ((media.getD c.from_medium default).units.length - 1)
        + c.from_medium := by
    conv_lhs =>
      rw [show (media.getD c.from_medium default).units.length
        = ((media.getD c.from_medium default).units.length - 1) + 1 by omega]
    rw [Nat.mul_succ]
  omega

theorem stepD_some_iff (goal mean : ℚ) (media media' : List UnitSet)
    (h : stepD goal mean media = some media') :
    ∃ c, c ∈ candidatesOf media mean
      ∧ c.value < measureSq mean (media.map UnitSet.len)
      ∧ media' = executeCand c media := by
  unfold stepD at h
  split_ifs at h with hgoal
  cases hm : minByValue (candidatesOf media mean) with
  | none =>
    rw [hm] at h
    dsimp only at h
    exact absurd h (by simp)
  | some best =>
    rw [hm] at h
    dsimp only at h
    split_ifs at h with hlt
    simp only [Option.some.injEq] at h
    exact ⟨best, minByValue_mem _ _ hm, hlt, h.symm⟩

theorem stepD_measureSq_lt (goal mean : ℚ) (media media' : List UnitSet)
    (h : stepD goal mean media = some media') :
    measureSq mean (media'.map UnitSet.len)
      < measureSq mean (media.map UnitSet.len) := by
  obtain ⟨c, hc, hlt, hm⟩ := stepD_some_iff goal mean media media' h
  obtain ⟨hi, hpos, last, hl, hval⟩ := mem_candidatesOf media mean c hc
  subst hm
  rw [executeCand_lens c media last hi hl, ← hval]
  exact hlt

theorem stepD_effects (goal mean : ℚ) (media media' : List UnitSet)
    (h : stepD goal mean media = some media') :
    media'.length = media.length
    ∧ unitCount media' = unitCount media
    ∧ unitWeight 0 media' = unitWeight 0 media + 1 := by
  obtain ⟨c, hc, hlt, hm⟩ := stepD_some_iff goal mean media media' h
  obtain ⟨hi, hpos, last, hl, hval⟩ := mem_candidatesOf media mean c hc
  subst hm
  exact ⟨executeCand_length c media last hl,
    executeCand_unitCount c media last hi hl,
    executeCand_unitWeight c media last hi hl⟩

theorem disperseFuel_succ (goal mean : ℚ) (n : Nat) (media : List UnitSet) :
    disperseFuel goal mean (n + 1) media =
      match stepD goal mean media with
      | none => media
      | some media2 => disperseFuel goal mean n media2 := rfl

theorem disperseFuel_stable (goal mean : ℚ) :
    ∀ (fuel : Nat) (media : List UnitSet),
      (media.length - 1) * unitCount media < fuel + unitWeight 0 media →
      ∀ k, disperseFuel goal mean (fuel + k) media = disperseFuel goal mean fuel media := by
  intro fuel
  induction fuel with
  | zero =>
    intro media hbound k
    have hle := unitWeight_le media 0
    simp only [Nat.zero_add] at hle hbound
    omega
  | succ fuel ih =>
    intro media hbound k
    have hidx : fuel + 1 + k = (fuel + k) + 1 := by omega
    rw [hidx, disperseFuel_succ, disperseFuel_succ]
    cases hstep : stepD goal mean media with
    | none => rfl
    | some m2 =>
      dsimp only
      obtain ⟨hlen, hcount, hweight⟩ := stepD_effects goal mean media m2 hstep
      exact ih m2 (by rw [hlen, hcount, hweight]; omega) k

theorem measure_impl_lt_iff (mean : ℚ) (l1 l2 : List Nat) :
    measure_impl mean l1 < measure_impl mean l2
      ↔ measureSq mean l1 < measureSq mean l2 := by
  unfold measure_impl
  rw [Real.sqrt_lt_sqrt_iff (by exact_mod_cast measureSq_nonneg mean l1)]
  exact_mod_cast Iff.rfl

/-- Fidelity of `goalMet`: for positive `mean` it is exactly the exact-real
form of `is_goal_met`'s comparison `measure / mean * 100 < goal`
(src/disperse.rs, lines 39-41). -/
theorem goalMet_iff_real (goal mean : ℚ) (lens : List Nat) (hm : 0 < mean) :
    goalMet goal mean lens
      ↔ measure_impl mean lens / (mean : ℝ) * 100 < (goal : ℝ) := by
  have hq : (0 : ℝ) ≤ ((measureSq mean lens : ℚ) : ℝ) := by
    exact_mod_cast measureSq_nonneg mean lens
  have hmr : (0 : ℝ) < (mean : ℚ) := by exact_mod_cast hm
  have hsq : (0 : ℝ) ≤ Real.sqrt ((measureSq mean lens : ℚ) : ℝ) := Real.sqrt_nonneg _
  unfold goalMet measure_impl
  rw [div_mul_eq_mul_div, div_lt_iff₀ hmr]
  by_cases hg : (0 : ℚ) < goal * mean
  · have hgr : (0 : ℝ) < (goal : ℚ) * (mean : ℚ) := by exact_mod_cast hg
    constructor
    · rintro ⟨-, h2⟩
      have h2r : 10000 * ((measureSq mean lens : ℚ) : ℝ)
          < ((goal : ℚ) : ℝ) ^ 2 * ((mean : ℚ) : ℝ) ^ 2 := by exact_mod_cast h2
      have hlt : (Real.sqrt ((measureSq mean lens : ℚ) : ℝ) * 100) ^ 2
          < (((goal : ℚ) : ℝ) * ((mean : ℚ) : ℝ)) ^ 2 := by
        rw [mul_pow, Real.sq_sqrt hq]
        nlinarith [h2r]
      have := (pow_lt_pow_iff_left₀ (by positivity) (by positivity) (two_ne_zero)).mp hlt
      calc Real.sqrt ((measureSq mean lens : ℚ) : ℝ) * 100
          < ((goal : ℚ) : ℝ) * ((mean : ℚ) : ℝ) := this
        _ = ((goal : ℚ) : ℝ) * ((mean : ℚ) : ℝ) := rfl
    · intro h
      refine ⟨hg, ?_⟩
      have hlt : (Real.sqrt ((measureSq mean lens : ℚ) : ℝ) * 100) ^ 2
          < (((goal : ℚ) : ℝ) * ((mean : ℚ) : ℝ)) ^ 2 := by
        apply pow_lt_pow_left₀ h (by positivity)
        exact two_ne_zero
      rw [mul_pow, Real.sq_sqrt hq] at hlt
      have : (10000 : ℝ) * ((measureSq mean lens : ℚ) : ℝ)
          < ((goal : ℚ) : ℝ) ^ 2 * ((mean : ℚ) : ℝ) ^ 2 := by nlinarith [hlt]
      exact_mod_cast this
  · constructor
    · rintro ⟨h1, -⟩
      exact absurd h1 hg
    · intro h
      exfalso
      have hgr : ((goal : ℚ) : ℝ) * ((mean : ℚ) : ℝ) ≤ 0 := by
        have : ¬ ((0 : ℝ) < ((goal : ℚ) : ℝ) * ((mean : ℚ) : ℝ)) := by
          intro hc
          exact hg (by exact_mod_cast hc)
        linarith [not_lt.mp this]
      nlinarith [hsq, h, hgr]

/-- C5. Disperser monotone termination: whenever an iteration of
`Disperse::disperse` executes a shift (`stepD` returns `some`), the
executed candidate's measure was strictly below the current measure, so
the measure `measure_impl` (the exact value of the `f64` square root the
code compares) strictly decreases; and from any state the loop reaches a
fixpoint within `(M − 1) · (number of units) + 1` iterations, so
`Disperse::disperse` terminates for every input. -/
theorem disperser_monotone_termination (goal mean : ℚ) :
    (∀ media media', stepD goal mean media = some media' →
        measure_impl mean (media'.map UnitSet.len)
          < measure_impl mean (media.map UnitSet.len))
    ∧ (∀ media k,
        disperseFuel goal mean ((media.length - 1) * unitCount media + 1 + k) media
          = disperseFuel goal mean ((media.length - 1) * unitCount media + 1) media) := by
  constructor
  · intro media media' h
    exact (measure_impl_lt_iff mean _ _).mpr (stepD_measureSq_lt goal mean media media' h)
  · intro media k
    exact disperseFuel_stable goal mean
      ((media.length - 1) * unitCount media + 1) media (by omega) k

/-- Concrete evaluation of one disperser iteration on two media with unit
lengths `[6, 4]` and `[]` (mean 5, goal 5): the loop executes the shift of
the tail unit `4` to the second medium. -/
theorem stepD_eval_example :
    stepD 5 5 [UnitSet.mk [Unit'.mk 0 6 [], Unit'.mk 0 4 []] 10, UnitSet.mk [] 0]
      = some [UnitSet.mk [Unit'.mk 0 6 []] 6, UnitSet.mk [Unit'.mk 0 4 []] 4] := by
  have hms : measureSq 5 [10, 0] = 50 := by
    simp [measureSq]
    norm_num
  have hms2 : measureSq 5 [6, 4] = 2 := by
    simp [measureSq]
    norm_num
  have hcand : candidatesOf
      [UnitSet.mk [Unit'.mk 0 6 [], Unit'.mk 0 4 []] 10, UnitSet.mk [] 0] 5
      = [Candidate.mk 0 2] := by
    simp [candidatesOf, candidateNew, List.range, UnitSet.len, newLens, List.filterMap]
    norm_num [hms2]
  rw [stepD]
  rw [if_neg (by
    rw [show ([UnitSet.mk [Unit'.mk 0 6 [], Unit'.mk 0 4 []] 10,
      UnitSet.mk [] 0].map UnitSet.len) = [10, 0] from rfl]
    simp [goalMet, hms]
    norm_num)]
  rw [hcand]
  show (if (Candidate.mk 0 2).value < measureSq 5
      ([UnitSet.mk [Unit'.mk 0 6 [], Unit'.mk 0 4 []] 10,
        UnitSet.mk [] 0].map UnitSet.len) then _ else none) = _
  rw [show ([UnitSet.mk [Unit'.mk 0 6 [], Unit'.mk 0 4 []] 10,
    UnitSet.mk [] 0].map UnitSet.len) = [10, 0] from rfl, hms]
  rw [if_pos (by norm_num)]
  rfl

/-- Witness for C5: a concrete executed shift (two units `6, 4` in the
first of two media) strictly decreases the measure. -/
theorem disperser_monotone_termination_witness :
    stepD 5 5 [UnitSet.mk [Unit'.mk 0 6 [], Unit'.mk 0 4 []] 10, UnitSet.mk [] 0]
      = some [UnitSet.mk [Unit'.mk 0 6 []] 6, UnitSet.mk [Unit'.mk 0 4 []] 4]
    ∧ measure_impl 5
        ([UnitSet.mk [Unit'.mk 0 6 []] 6, UnitSet.mk [Unit'.mk 0 4 []] 4].map UnitSet.len)
      < measure_impl 5
        ([UnitSet.mk [Unit'.mk 0 6 [], Unit'.mk 0 4 []] 10, UnitSet.mk [] 0].map UnitSet.len) :=
  ⟨stepD_eval_example, (disperser_monotone_termination 5 5).1 _ _ stepD_eval_example⟩

/-- Evacuating a medium never improves the measure: if the length recorded
at position `i` equals the shifted amount `u` (the medium holds exactly
that much and would end at 0), the predicted sum of squares grows by
`2·u·lens[i+1] ≥ 0`. -/
theorem newLens_measureSq_ge (mean : ℚ) (lens : List Nat) (i u : Nat)
    (hi : i + 1 < lens.length) (hu : lens.getD i 0 = u) :
    measureSq mean lens ≤ measureSq mean (newLens lens i u) := by
  rw [newLens_eq_set_set lens i u hi, hu, Nat.sub_self]
  have hs1 := qsum_map_set (fun len => ((len : ℚ) - mean) ^ 2) lens i 0 (by omega)
  have hs2 := qsum_map_set (fun len => ((len : ℚ) - mean) ^ 2) (lens.set i 0) (i + 1)
    (lens.getD (i + 1) 0 + u) (by simp only [List.length_set]; omega)
  rw [getD_set_ne _ _ _ _ _ (by omega)] at hs2
  rw [hu] at hs1
  unfold measureSq
  rw [show ((lens.set i 0).set (i + 1) (lens.getD (i + 1) 0 + u)).length
    = lens.length by simp]
  rw [hs2, hs1]
  apply div_le_div_of_nonneg_right _ (by positivity)
  simp only
  have hub : (0 : ℚ) ≤ 2 * (u : ℚ) * (lens.getD (i + 1) 0 : ℚ) := by positivity
  have key : ((0 : ℚ) - mean) ^ 2 + (((lens.getD (i + 1) 0 + u : ℕ) : ℚ) - mean) ^ 2
      = (((u : ℕ) : ℚ) - mean) ^ 2 + (((lens.getD (i + 1) 0 : ℕ) : ℚ) - mean) ^ 2
        + 2 * (u : ℚ) * (lens.getD (i + 1) 0 : ℚ) := by
    push_cast
    ring
  push_cast at key ⊢
  linarith [key, hub]

/-- Counterexample to C8 as stated: on media with unit lengths `[[10], []]`
(mean 5) the candidate shifting the single unit of `media[0]` — a shift
that would leave `media[0]` with no units — is generated and kept in the
candidate list, not discarded: `Candidate::new` signals `EmptyUnitSet`
only when the source set is already empty (src/disperse.rs, lines
110-114), a case the `len() > 0` guard has already excluded. -/
theorem empty_medium_discard_counterexample :
    candidatesOf [UnitSet.mk [Unit'.mk 0 10 []] 10, UnitSet.mk [] 0] 5
      = [Candidate.mk 0 50]
    ∧ (UnitSet.mk [Unit'.mk 0 10 []] 10).units.length = 1 := by
  have hms : measureSq 5 [0, 10] = 50 := by
    simp [measureSq]
    norm_num
  refine ⟨?_, rfl⟩
  simp [candidatesOf, candidateNew, List.range, UnitSet.len, newLens, List.filterMap]
  norm_num [hms]

/-- C8 (amended). Disperser empty-medium preservation: a candidate whose
shift would evacuate a one-unit medium is generated (not discarded — the
`EmptyUnitSet` signal of `Candidate::new` fires only for already-empty
sets, which the `len() > 0` guard excludes), but no executed disperser
step ever evacuates a medium that held at least one unit: provided every
set satisfies the cached-total invariant, such a candidate's measure is
never strictly below the current measure, so the `best_candidate.value <
self.measure()` guard rejects it. -/
theorem disperser_no_evacuation (goal mean : ℚ) (media media' : List UnitSet)
    (hinv : ∀ s ∈ media, s.inv)
    (h : stepD goal mean media = some media') :
    ∀ j, (media.getD j default).units ≠ [] → (media'.getD j default).units ≠ [] := by
  obtain ⟨c, hc, hlt, hm⟩ := stepD_some_iff goal mean media media' h
  obtain ⟨hi, hpos, last, hl, hval⟩ := mem_candidatesOf media mean c hc
  subst hm
  intro j hj
  rw [executeCand_eq c media last hl]
  by_cases hj2 : c.from_medium + 1 = j
  · subst hj2
    rw [getD_set_self _ _ _ _ (by simp only [List.length_set]; omega)]
    simp
  · rw [getD_set_ne _ _ _ _ _ hj2]
    by_cases hj1 : c.from_medium = j
    · subst hj1
      rw [getD_set_self _ _ _ _ (by omega)]
      intro hdrop
      have hdrop2 : (media.getD c.from_medium default).units.dropLast = [] := hdrop
      have hlen1 : (media.getD c.from_medium default).units.length = 1 := by
        have h1 : (media.getD c.from_medium default).units.length - 1 = 0 := by
          rw [← List.length_dropLast, hdrop2]
          rfl
        have h2 : (media.getD c.from_medium default).units.length ≠ 0 :=
          fun hz => hj (List.eq_nil_of_length_eq_zero hz)
        omega
      have hunits : (media.getD c.from_medium default).units = [last] := by
        cases hu : (media.getD c.from_medium default).units with
        | nil => exact absurd hu hj
        | cons a t =>
          cases t with
          | nil =>
            rw [hu] at hl
            simp only [List.getLast?_singleton, Option.some.injEq] at hl
            rw [hl]
          | cons b t2 => rw [hu] at hlen1; simp at hlen1
      have hmem : media.getD c.from_medium default ∈ media := by
        rw [List.getD_eq_getElem _ _ (by omega : c.from_medium < media.length)]
        exact List.getElem_mem _
      have hinv1 := hinv _ hmem
      unfold UnitSet.inv UnitSet.sumLens at hinv1
      rw [hunits] at hinv1
      simp only [List.map_cons, List.map_nil, List.sum_cons, List.sum_nil,
        Nat.add_zero] at hinv1
      have hgetD : (media.map UnitSet.len).getD c.from_medium 0 = last.len := by
        rw [getD_map_len]
        exact hinv1
      have hge := newLens_measureSq_ge mean (media.map UnitSet.len)
        c.from_medium last.len (by simpa using hi) hgetD
      rw [← hval] at hge
      exact absurd hlt (not_lt.mpr hge)
    · rw [getD_set_ne _ _ _ _ _ hj1]
      exact hj

/-- Witness for the amended C8: on the concrete executed shift of
`stepD_eval_example` (whose sets satisfy the invariant), the non-empty
first medium stays non-empty. -/
theorem disperser_no_evacuation_witness :
    ((UnitSet.mk [Unit'.mk 0 6 [], Unit'.mk 0 4 []] 10).inv ∧ (UnitSet.mk [] 0).inv)
    ∧ ([UnitSet.mk [Unit'.mk 0 6 []] 6, UnitSet.mk [Unit'.mk 0 4 []] 4].getD 0
        default).units ≠ [] := by
  refine ⟨⟨by decide, by decide⟩, ?_⟩
  exact disperser_no_evacuation 5 5 _ _
    (by
      intro s hs
      rcases List.mem_cons.mp hs with hs | hs
      · subst hs; decide
      · rcases List.mem_cons.mp hs with hs | hs
        · subst hs; decide
        · simp at hs)
    stepD_eval_example 0 (by decide)

/-! ## src/stats.rs and src/block_size.rs — the block-size optimizer -/

/-- `RECORD_SIZE` (src/consts.rs). -/
def RECORD_SIZE : Nat := 64

/-- `BLOCK_SIZES` (src/block_size.rs, lines 7-27): the fixed candidate
set, powers of two from `0x200 = 2^9` to `0x8_000_000 = 2^27`. -/
def BLOCK_SIZES : List Nat :=
  [0x200, 0x400, 0x800, 0x1000, 0x2000, 0x4000, 0x8000, 0x10000, 0x20000,
   0x40000, 0x80000, 0x100000, 0x200000, 0x400000, 0x800000,
   0x1000000, 0x2000000, 0x4000000, 0x8000000]

/-- `Stats` (src/stats.rs, lines 5-9): the per-file logical path lengths
and file sizes. -/
structure Stats where
  path_lens : List Nat
  file_sizes : List Nat
deriving Repr, DecidableEq, Inhabited

/-- The padding-loss fold of `BlockSize::block_size` (src/block_size.rs,
lines 52-55): `loss + block_size - size % block_size` per file (`u64`
arithmetic; `size % block_size < block_size`, so the subtraction never
underflows). -/
def paddingLoss (stats : Stats) (block_size : Nat) : Nat :=
  stats.file_sizes.foldl (fun loss size => loss + block_size - size % block_size) 0

/-- The record-table fold of `estimate_size_of_tables`
(src/block_size.rs, lines 102-104): per file,
`(size + block_size - 1) * RECORD_SIZE / block_size` with truncating
integer division. -/
def record_table_size (block_size : Nat) (sizes : List Nat) : Nat :=
  sizes.foldl
    (fun block_count size => block_count + (size + block_size - 1) * RECORD_SIZE / block_size) 0

/-- The index-table fold of `estimate_size_of_tables`
(src/block_size.rs, lines 105-107): the sum of the logical path
lengths. -/
def index_table_size (path_lens : List Nat) : Nat :=
  path_lens.foldl (fun sum path_len => sum + path_len) 0

/-- `estimate_size_of_tables` (src/block_size.rs, lines 97-110). -/
def estimate_size_of_tables (block_size : Nat) (path_lens sizes : List Nat) : Nat :=
  record_table_size block_size sizes + index_table_size path_lens

/-- The `loss_table` built by `BlockSize::block_size` (src/block_size.rs,
lines 43-70): one `(block_size, loss, size_of_tables)` triple per
candidate. -/
def lossTable (stats : Stats) : List (Nat × Nat × Nat) :=
  BLOCK_SIZES.map (fun block_size =>
    (block_size, paddingLoss stats block_size,
      estimate_size_of_tables block_size stats.path_lens stats.file_sizes))

/-- `min_by_key(|(_, loss, size_of_tables)| loss + size_of_tables)`
(src/block_size.rs, lines 75-78); Rust's `Iterator::min_by_key` returns
the first of several equally minimal elements. -/
def minByKeyLoss : List (Nat × Nat × Nat) → Option (Nat × Nat × Nat)
  | [] => none
  | t :: rest =>
      match minByKeyLoss rest with
      | none => some t
      | some m => if m.2.1 + m.2.2 < t.2.1 + t.2.2 then some m else some t

/-- `BlockSize::block_size` (src/block_size.rs, lines 42-94): the
candidate minimizing `loss + size_of_tables` (the `expect` on an empty
table cannot fire as `BLOCK_SIZES` is non-empty). -/
def block_size (stats : Stats) : Nat :=
  ((minByKeyLoss (lossTable stats)).map (fun t => t.1)).getD 0

/-- The total cost the optimizer minimizes for one candidate. -/
def blockCost (stats : Stats) (b : Nat) : Nat :=
  paddingLoss stats b + estimate_size_of_tables b stats.path_lens stats.file_sizes

theorem minByKeyLoss_cons (t : Nat × Nat × Nat) (rest : List (Nat × Nat × Nat)) :
    minByKeyLoss (t :: rest) =
      match minByKeyLoss rest with
      | none => some t
      | some m => if m.2.1 + m.2.2 < t.2.1 + t.2.2 then some m else some t := rfl
theorem minByKeyLoss_spec (stats : Stats) :
    ∀ (bs : List Nat), List.Pairwise (· ≤ ·) bs → bs ≠ [] →
      ∃ b0, minByKeyLoss (bs.map (fun b =>
          (b, paddingLoss stats b,
            estimate_size_of_tables b stats.path_lens stats.file_sizes)))
          = some (b0, paddingLoss stats b0,
              estimate_size_of_tables b0 stats.path_lens stats.file_sizes)
        ∧ b0 ∈ bs
        ∧ (∀ b ∈ bs, blockCost stats b0 ≤ blockCost stats b)
        ∧ (∀ b ∈ bs, blockCost stats b = blockCost stats b0 → b0 ≤ b)
  | [], _, hne => absurd rfl hne
  | [b], _, _ => by
    refine ⟨b, rfl, by simp, ?_, ?_⟩
    · intro c hc
      simp only [List.mem_singleton] at hc
      subst hc
      exact le_refl _
    · intro c hc _
      simp only [List.mem_singleton] at hc
      omega
  | b :: b2 :: bs, hsort, _ => by
    obtain ⟨b0, ht2, htmem, htmin, httie⟩ :=
      minByKeyLoss_spec stats (b2 :: bs) (List.Pairwise.sublist (by simp) hsort) (by simp)
    have hble : ∀ c ∈ b2 :: bs, b ≤ c := fun c hc => (List.pairwise_cons.mp hsort).1 c hc
    rw [List.map_cons, minByKeyLoss_cons, ht2]
    dsimp only
    by_cases hlt : paddingLoss stats b0
        + estimate_size_of_tables b0 stats.path_lens stats.file_sizes
        < paddingLoss stats b + estimate_size_of_tables b stats.path_lens stats.file_sizes
    · rw [if_pos hlt]
      have hlt2 : blockCost stats b0 < blockCost stats b := hlt
      refine ⟨b0, rfl, List.mem_cons_of_mem b htmem, ?_, ?_⟩
      · intro c hc
        rcases List.mem_cons.mp hc with hc | hc
        · subst hc; exact le_of_lt hlt2
        · exact htmin c hc
      · intro c hc hceq
        rcases List.mem_cons.mp hc with hc | hc
        · subst hc; omega
        · exact httie c hc hceq
    · rw [if_neg hlt]
      have hlt2 : ¬ blockCost stats b0 < blockCost stats b := hlt
      refine ⟨b, rfl, List.mem_cons_self _ _, ?_, ?_⟩
      · intro c hc
        rcases List.mem_cons.mp hc with hc | hc
        · subst hc; exact le_refl _
        · exact le_trans (not_lt.mp hlt2) (htmin c hc)
      · intro c hc _
        rcases List.mem_cons.mp hc with hc | hc
        · subst hc; exact le_refl _
        · exact hble c hc

/-- C6. Block-size optimum: for every non-empty file population,
`BlockSize::block_size` returns a member of the fixed 19-element candidate
set `BLOCK_SIZES` = {2^9, …, 2^27} attaining the minimum of
`total(b) = padding_loss(b) + record_table_cost(b) + Σ path_len_i`
over all candidates, and on ties it returns the smallest such candidate
(`min_by_key` keeps the first minimum and the candidate list is
ascending). -/
theorem block_size_optimum (stats : Stats) (_h : stats.file_sizes ≠ []) :
    block_size stats ∈ BLOCK_SIZES
    ∧ (∀ b ∈ BLOCK_SIZES, blockCost stats (block_size stats) ≤ blockCost stats b)
    ∧ (∀ b ∈ BLOCK_SIZES, blockCost stats b = blockCost stats (block_size stats) →
        block_size stats ≤ b) := by
  obtain ⟨b0, hmin, hmem, hle, htie⟩ :=
    minByKeyLoss_spec stats BLOCK_SIZES (by decide) (by decide)
  have hbs : block_size stats = b0 := by
    unfold block_size lossTable
    rw [hmin]
    rfl
  rw [hbs]
  exact ⟨hmem, hle, htie⟩

/-- Witness for C6 (scenario S5 of the spec): sizes `[1000, 10000,
1000000]` with total path length 100. -/
theorem block_size_optimum_witness :
    (Stats.mk [100] [1000, 10000, 1000000]).file_sizes ≠ []
    ∧ block_size (Stats.mk [100] [1000, 10000, 1000000]) ∈ BLOCK_SIZES
    ∧ ∀ b ∈ BLOCK_SIZES,
        blockCost (Stats.mk [100] [1000, 10000, 1000000])
          (block_size (Stats.mk [100] [1000, 10000, 1000000]))
        ≤ blockCost (Stats.mk [100] [1000, 10000, 1000000]) b := by
  have h := block_size_optimum (Stats.mk [100] [1000, 10000, 1000000]) (by decide)
  exact ⟨by decide, h.1, h.2.1⟩

theorem foldl_add_map (f : Nat → Nat) :
    ∀ (l : List Nat) (n : Nat),
      l.foldl (fun acc x => acc + f x) n = n + (l.map f).sum
  | [], n => by simp
  | x :: rest, n => by
    simp only [List.foldl_cons, List.map_cons, List.sum_cons]
    rw [foldl_add_map f rest (n + f x)]
    omega

/-- Counterexample to C7 as stated: for `b = 512` and a single file of
size 10, the code's record-table fold yields
`(10 + 512 − 1) · 64 / 512 = 65`, while `⌈10/512⌉ · 64 = 64`. -/
theorem record_table_cost_counterexample :
    record_table_size 512 [10] = 65
    ∧ ([10].map (fun size => (size + 512 - 1) / 512 * 64)).sum = 64
    ∧ record_table_size 512 [10]
        ≠ ([10].map (fun size => (size + 512 - 1) / 512 * 64)).sum := by
  exact ⟨by decide, by decide, by decide⟩

/-- C7 (amended). Record-table cost formula: for every block-size
candidate `b` and every list of file sizes, the record-table component of
the block-size cost computed by `estimate_size_of_tables` equals
`Σ ⌊(size_i + b − 1) · 64 / b⌋` (truncating integer division, 64 bytes
per block record), and the whole estimate is that sum plus
`Σ path_len_i`.  This differs from `Σ ⌈size_i / b⌉ · 64` (counterexample
above): the multiplication by 64 happens before the truncating
division. -/
theorem record_table_cost_amended (b : Nat) (sizes path_lens : List Nat) :
    record_table_size b sizes
      = (sizes.map (fun size => (size + b - 1) * RECORD_SIZE / b)).sum
    ∧ estimate_size_of_tables b path_lens sizes
      = (sizes.map (fun size => (size + b - 1) * RECORD_SIZE / b)).sum
        + path_lens.sum := by
  have h1 : record_table_size b sizes
      = (sizes.map (fun size => (size + b - 1) * RECORD_SIZE / b)).sum := by
    unfold record_table_size
    rw [foldl_add_map (fun size => (size + b - 1) * RECORD_SIZE / b) sizes 0]
    omega
  refine ⟨h1, ?_⟩
  unfold estimate_size_of_tables index_table_size
  rw [h1]
  have h2 : path_lens.foldl (fun sum path_len => sum + path_len) 0 = path_lens.sum := by
    have := foldl_add_map (fun x => x) path_lens 0
    simpa using this
  omega

/-! ## src/main.rs — media estimation, naming, and interleaving -/

/-- `Medium` (src/medium.rs), reduced to the fields the grouping claims
use: the assigned name and the redundancy flag. -/
structure Medium where
  name : String
  redundancy : Bool
deriving Repr, DecidableEq, Inhabited

/-- The initial media-count estimate of `run` (src/main.rs, lines
140-146): `(total + (medium_size − 1)) / medium_size`, incremented by one
if odd ("make even number"). -/
def estMediaCount (total_len medium_size : Nat) : Nat :=
  let e := (total_len + (medium_size - 1)) / medium_size
  if e % 2 = 1 then e + 1 else e

/-- `medium_names` (src/main.rs, lines 162-169): the fixed six-element
name list. -/
def medium_names : List String :=
  ["Apple", "Avocado", "Banana", "Blueberry", "Cherry", "Cranberry"]

/-- The data-media construction of `run` (src/main.rs, lines 172-181):
one name per data medium drawn in order from the iterator; `none` models
the `expect("we ran out of names for media")` panic on exhaustion.
Returns the data media and the remaining names. -/
def nameDataMedia (count : Nat) (names : List String) :
    Option (List Medium × List String) :=
  match count, names with
  | 0, names => some ([], names)
  | _ + 1, [] => none
  | c + 1, name :: names =>
      (nameDataMedia c names).map (fun p => (⟨name, false⟩ :: p.1, p.2))

/-- The redundancy-interleaving `flat_map` of `run` (src/main.rs, lines
183-202): after every odd-indexed (`n & 1 == 1`) data medium insert one
redundancy medium carrying the next name from the iterator; `none`
models the same `expect` panic. -/
def interleaveRedundancy : List Medium → List String → Nat → Option (List Medium)
  | [], _, _ => some []
  | m :: rest, names, n =>
      if n % 2 = 1 then
        match names with
        | [] => none
        | name :: names2 =>
            (interleaveRedundancy rest names2 (n + 1)).map
              (fun t => m :: ⟨name, true⟩ :: t)
      else
        (interleaveRedundancy rest names (n + 1)).map (fun t => m :: t)

/-- The media pipeline of `run` for a given number of data media: draw
the data names, then interleave the redundancy media. -/
def buildMedia (count : Nat) : Option (List Medium) :=
  match nameDataMedia count medium_names with
  | none => none
  | some (data, names) => interleaveRedundancy data names 0

theorem nameDataMedia_none :
    ∀ (count : Nat) (names : List String), names.length < count →
      nameDataMedia count names = none
  | 0, _, h => by simp at h
  | _ + 1, [], _ => rfl
  | c + 1, name :: names, h => by
    simp only [nameDataMedia]
    rw [nameDataMedia_none c names (by simpa using Nat.lt_of_succ_lt_succ h)]
    rfl

theorem nameDataMedia_some :
    ∀ (count : Nat) (names : List String) (p : List Medium × List String),
      nameDataMedia count names = some p →
      p.1.length = count ∧ (∀ m ∈ p.1, m.redundancy = false)
  | 0, names, p, h => by
    simp only [nameDataMedia, Option.some.injEq] at h
    subst h
    exact ⟨rfl, by simp⟩
  | _ + 1, [], p, h => by simp [nameDataMedia] at h
  | c + 1, name :: names, p, h => by
    simp only [nameDataMedia, Option.map_eq_some'] at h
    obtain ⟨q, hq, hp⟩ := h
    obtain ⟨h1, h2⟩ := nameDataMedia_some c names q hq
    subst hp
    constructor
    · simp [h1]
    · intro m hm
      rcases List.mem_cons.mp hm with hm | hm
      · subst hm; rfl
      · exact h2 m hm

theorem interleave_cons (m : Medium) (rest : List Medium)
    (names : List String) (n : Nat) :
    interleaveRedundancy (m :: rest) names n =
      if n % 2 = 1 then
        match names with
        | [] => none
        | name :: names2 =>
            (interleaveRedundancy rest names2 (n + 1)).map
              (fun t => m :: Medium.mk name true :: t)
      else
        (interleaveRedundancy rest names (n + 1)).map (fun t => m :: t) := rfl

theorem interleave_two_step (d1 d2 : Medium) (rest : List Medium)
    (names : List String) (n : Nat) (hn : n % 2 = 0) :
    interleaveRedundancy (d1 :: d2 :: rest) names n =
      match names with
      | [] => none
      | name :: names2 =>
          (interleaveRedundancy rest names2 (n + 2)).map
            (fun t => d1 :: d2 :: Medium.mk name true :: t) := by
  rw [interleave_cons, if_neg (by omega), interleave_cons, if_pos (by omega)]
  cases names with
  | nil => rfl
  | cons name names2 =>
    dsimp only
    rw [Option.map_map]
    rw [show n + 1 + 1 = n + 2 by omega]
    rfl

theorem interleave_chunks :
    ∀ (k : Nat) (ds : List Medium) (names : List String) (l : List Medium) (n : Nat),
      ds.length = 2 * k → n % 2 = 0 →
      (∀ m ∈ ds, m.redundancy = false) →
      interleaveRedundancy ds names n = some l →
      l.length = 3 * k
      ∧ ∀ j < k, ∃ a b c, (l.drop (3 * j)).take 3 = [a, b, c]
          ∧ a.redundancy = false ∧ b.redundancy = false ∧ c.redundancy = true := by
  intro k
  induction k with
  | zero =>
    intro ds names l n hlen _ _ hrun
    have hds : ds = [] := List.eq_nil_of_length_eq_zero (by omega)
    subst hds
    simp only [interleaveRedundancy, Option.some.injEq] at hrun
    subst hrun
    exact ⟨rfl, fun j hj => absurd hj (by omega)⟩
  | succ k ih =>
    intro ds names l n hlen hn hflags hrun
    match ds, hlen with
    | d1 :: d2 :: rest, hlen =>
      rw [interleave_two_step d1 d2 rest names n hn] at hrun
      cases names with
      | nil => simp at hrun
      | cons name names2 =>
        simp only [Option.map_eq_some'] at hrun
        obtain ⟨t, ht, hl⟩ := hrun
        subst hl
        obtain ⟨ihlen, ihchunk⟩ := ih rest names2 t (n + 2)
          (by simp only [List.length_cons] at hlen; omega) (by omega)
          (fun m hm => hflags m (by simp [hm]))
          ht
        constructor
        · simp only [List.length_cons, ihlen]
          omega
        · intro j hj
          cases j with
          | zero =>
            refine ⟨d1, d2, Medium.mk name true, by simp, ?_, ?_, rfl⟩
            · exact hflags d1 (by simp)
            · exact hflags d2 (by simp)
          | succ j =>
            have hdrop : ((d1 :: d2 :: Medium.mk name true :: t).drop (3 * (j + 1)))
                = t.drop (3 * j) := by
              rw [show 3 * (j + 1) = 3 * j + 3 by ring]
              rfl
            rw [hdrop]
            exact ihchunk j (by omega)

/-- C9. Implicit group-shape invariant: the media-count estimate is always
even, adding 2 preserves evenness (the capacity-retry loop only ever adds
2), and for an even number of data media the name-and-interleave pipeline
produces `3 · (D/2)` media in which every chunk of three is (data, data,
redundancy) — so `chunks_mut(3)` never sees a short trailing chunk. -/
theorem group_shape_invariant :
    (∀ total_len medium_size, estMediaCount total_len medium_size % 2 = 0)
    ∧ (∀ est k : Nat, est % 2 = 0 → (est + 2 * k) % 2 = 0)
    ∧ (∀ count l, count % 2 = 0 → buildMedia count = some l →
        l.length = 3 * (count / 2)
        ∧ 3 ∣ l.length
        ∧ ∀ j < count / 2, ∃ a b c, (l.drop (3 * j)).take 3 = [a, b, c]
            ∧ a.redundancy = false ∧ b.redundancy = false ∧ c.redundancy = true) := by
  refine ⟨?_, ?_, ?_⟩
  · intro total_len medium_size
    unfold estMediaCount
    dsimp only
    split_ifs with hodd
    · omega
    · omega
  · intro est k h
    omega
  · intro count l hcount hrun
    unfold buildMedia at hrun
    cases hname : nameDataMedia count medium_names with
    | none => rw [hname] at hrun; exact absurd hrun (by simp)
    | some p =>
      rw [hname] at hrun
      obtain ⟨hlen, hflags⟩ := nameDataMedia_some count medium_names p hname
      obtain ⟨hl, hchunk⟩ := interleave_chunks (count / 2) p.1 p.2 l 0
        (by omega) (by omega) hflags hrun
      exact ⟨hl, ⟨count / 2, hl⟩, hchunk⟩

/-- Witness for C9: with 4 data media the pipeline yields 6 media in two
(data, data, redundancy) chunks. -/
theorem group_shape_invariant_witness :
    estMediaCount 100 64 % 2 = 0
    ∧ (4 : Nat) % 2 = 0
    ∧ ∃ l, buildMedia 4 = some l ∧ l.length = 3 * (4 / 2)
        ∧ ∃ a b c, (l.drop 3).take 3 = [a, b, c]
            ∧ a.redundancy = false ∧ b.redundancy = false ∧ c.redundancy = true := by
  have h := group_shape_invariant
  have hrun : buildMedia 4 = some
      [Medium.mk "Apple" false, Medium.mk "Avocado" false, Medium.mk "Cherry" true,
       Medium.mk "Banana" false, Medium.mk "Blueberry" false, Medium.mk "Cranberry" true] := rfl
  have h4 := h.2.2 4 _ (by decide) hrun
  refine ⟨h.1 100 64, by decide, _, hrun, h4.1, ?_⟩
  have := h4.2.2 1 (by decide)
  simpa using this

/-- C10. Implicit medium-name limit: medium names are drawn in order from
the fixed six-element list; whenever the dispersal requires more than
four data media (hence more than six media including redundancy media)
the pipeline hits the `expect("we ran out of names for media")` panic
(modelled `none`) instead of returning an error, and with at most four
data media the name iterator never exhausts. -/
theorem medium_name_limit :
    (∀ count, 4 < count → buildMedia count = none)
    ∧ (∀ count, count ≤ 4 → ∃ l, buildMedia count = some l) := by
  constructor
  · intro count hc
    by_cases h6 : count ≤ 6
    · interval_cases count
      · rfl
      · rfl
    · unfold buildMedia
      rw [nameDataMedia_none count medium_names (by simp [medium_names]; omega)]
  · intro count hc
    interval_cases count
    · exact ⟨_, rfl⟩
    · exact ⟨_, rfl⟩
    · exact ⟨_, rfl⟩
    · exact ⟨_, rfl⟩
    · exact ⟨_, rfl⟩

/-- Witness for C10: six data media panic (names exhausted), four do
not. -/
theorem medium_name_limit_witness :
    ((4 : Nat) < 6 ∧ buildMedia 6 = none)
    ∧ ((4 : Nat) ≤ 4 ∧ ∃ l, buildMedia 4 = some l) :=
  ⟨⟨by decide, medium_name_limit.1 6 (by decide)⟩,
   ⟨by decide, medium_name_limit.2 4 (by decide)⟩⟩
